import Mathlib

set_option maxHeartbeats 1000000

/-!
Shallow embedding of the unfinalized overlay of
`substrate/state-db/src/unfinalized.rs`, together with its collaborators
(the value model, the journal codec and the meta store) as described by the
specification.  Block hashes and keys are modelled as `Nat` (`u64`-sized
where the codec is involved), `DBValue` as a list of bytes (`List Nat`).
-/

/-- Width of the machine integers (`u64`) used for block numbers, and in this
model for block hashes and keys. -/
def W : Nat := 18446744073709551616

/-- Wrapping `u64` increment, as in `front_block_number` (`n + 1`). -/
def winc (n : Nat) : Nat := (n + 1) % W

/-- Wrapping `u64` decrement, as in `number - 1` on the bootstrap insert. -/
def wsub1 (n : Nat) : Nat := (n + (W - 1)) % W

/-- Modelled from the spec: the codec crate is not under `src/`.  A
deterministic fixed-width little-endian encoding of a machine integer into
`k` bytes ("deterministic encoding" of numbers used in keys and records). -/
def encNatLE : Nat → Nat → List Nat
  | 0, _ => []
  | k+1, n => n % 256 :: encNatLE k (n / 256)

/-- Modelled from the spec: decoder matching `encNatLE`; fails (returns
`none`) on truncated input instead of panicking. -/
def decNatLE : Nat → List Nat → Option (Nat × List Nat)
  | 0, l => some (0, l)
  | _+1, [] => none
  | k+1, b :: l =>
    match decNatLE k l with
    | some (v, r) => some (b + 256 * v, r)
    | none => none

/-- Modelled from the spec: encoding of a `u64`. -/
def encU64 (n : Nat) : List Nat := encNatLE 8 n

/-- Modelled from the spec: decoding of a `u64`. -/
def decU64 (l : List Nat) : Option (Nat × List Nat) := decNatLE 8 l

/-- Modelled from the spec: a byte buffer (`DBValue`, `Vec<u8>`) is encoded
with its length prefix followed by the raw bytes. -/
def encBytes (v : List Nat) : List Nat := encU64 v.length ++ v

/-- Modelled from the spec: decoder for a length-prefixed byte buffer. -/
def decBytes (l : List Nat) : Option (List Nat × List Nat) :=
  match decU64 l with
  | some (n, r) => if n ≤ r.length then some (r.take n, r.drop n) else none
  | none => none

/-- Concatenation of the encodings of the elements of a list. -/
def encListWith (f : α → List Nat) : List α → List Nat
  | [] => []
  | a :: l => f a ++ encListWith f l

/-- Modelled from the spec: a sequence is encoded length-prefixed
("each with its length prefix"). -/
def encVec (f : α → List Nat) (l : List α) : List Nat :=
  encU64 l.length ++ encListWith f l

/-- Decode exactly `k` elements with the element decoder `f`. -/
def decN (f : List Nat → Option (α × List Nat)) : Nat → List Nat → Option (List α × List Nat)
  | 0, l => some ([], l)
  | k+1, l =>
    match f l with
    | some (a, r) =>
      match decN f k r with
      | some (as, r2) => some (a :: as, r2)
      | none => none
    | none => none

/-- Modelled from the spec: decoder for a length-prefixed sequence. -/
def decVec (f : List Nat → Option (α × List Nat)) (l : List Nat) :
    Option (List α × List Nat) :=
  match decU64 l with
  | some (n, r) => decN f n r
  | none => none

/-- Modelled from the spec: a `(Key, DBValue)` pair is encoded field by
field. -/
def encKV (p : Nat × List Nat) : List Nat := encU64 p.1 ++ encBytes p.2

/-- Modelled from the spec: decoder for a `(Key, DBValue)` pair. -/
def decKV (l : List Nat) : Option ((Nat × List Nat) × List Nat) :=
  match decU64 l with
  | some (k, r) =>
    match decBytes r with
    | some (v, r2) => some ((k, v), r2)
    | none => none
  | none => none

/-- The journal record of one block
(`JournalRecord` in `unfinalized.rs`). -/
structure JournalRecord where
  hash : Nat
  parent_hash : Nat
  inserted : List (Nat × List Nat)
  deleted : List Nat
deriving DecidableEq, Repr

/-- `Encode for JournalRecord`: the four fields in order
(hash, parent_hash, inserted, deleted). -/
def encodeRecord (r : JournalRecord) : List Nat :=
  encU64 r.hash ++ encU64 r.parent_hash ++
    encVec encKV r.inserted ++ encVec encU64 r.deleted

/-- `Decode for JournalRecord`: the four fields in order; any failure
propagates as `none` (surfacing as the `Decoding` error). -/
def decodeRecord (l : List Nat) : Option (JournalRecord × List Nat) :=
  match decU64 l with
  | some (h, r1) =>
    match decU64 r1 with
    | some (p, r2) =>
      match decVec decKV r2 with
      | some (ins, r3) =>
        match decVec decU64 r3 with
        | some (del, r4) => some (⟨h, p, ins, del⟩, r4)
        | none => none
      | none => none
    | none => none
  | none => none

/-- Well-formedness of a record with respect to the machine widths: all
numbers and lengths fit in a `u64`. -/
def WFRecord (r : JournalRecord) : Prop :=
  r.hash < W ∧ r.parent_hash < W ∧ r.inserted.length < W ∧ r.deleted.length < W ∧
    (∀ p ∈ r.inserted, p.1 < W ∧ p.2.length < W) ∧ ∀ k ∈ r.deleted, k < W

instance (r : JournalRecord) : Decidable (WFRecord r) := by
  unfold WFRecord; exact inferInstance

theorem decNatLE_append (k : Nat) :
    ∀ l e v r, decNatLE k l = some (v, r) → decNatLE k (l ++ e) = some (v, r ++ e) := by
  induction k with
  | zero => intro l e v r h; simp [decNatLE] at h ⊢; exact ⟨h.1, h.2 ▸ rfl⟩
  | succ k ih =>
    intro l e v r h
    cases l with
    | nil => simp [decNatLE] at h
    | cons b l =>
      simp only [List.cons_append, decNatLE, List.append_eq] at h ⊢
      cases hd : decNatLE k l with
      | none => rw [hd] at h; simp at h
      | some vr =>
        rw [hd] at h
        obtain ⟨v2, r2⟩ := vr
        simp at h
        rw [ih l e v2 r2 hd]
        simp [h.1, h.2]

theorem decNatLE_enc (k : Nat) :
    ∀ n rest, n < 256 ^ k → decNatLE k (encNatLE k n ++ rest) = some (n, rest) := by
  induction k with
  | zero => intro n rest h; simp at h; simp [h, encNatLE, decNatLE]
  | succ k ih =>
    intro n rest h
    have hdiv : n / 256 < 256 ^ k := by
      rw [Nat.div_lt_iff_lt_mul (by norm_num)]
      calc n < 256 ^ (k+1) := h
        _ = 256 ^ k * 256 := by ring
    simp only [encNatLE, List.cons_append, decNatLE, List.append_eq]
    rw [ih (n / 256) rest hdiv]
    simp [Nat.mod_add_div]

theorem decU64_append (l e : List Nat) (v : Nat) (r : List Nat)
    (h : decU64 l = some (v, r)) : decU64 (l ++ e) = some (v, r ++ e) :=
  decNatLE_append 8 l e v r h

theorem decU64_enc (n : Nat) (rest : List Nat) (h : n < W) :
    decU64 (encU64 n ++ rest) = some (n, rest) :=
  decNatLE_enc 8 n rest (by unfold W at h; norm_num at h ⊢; omega)

theorem decBytes_append (l e : List Nat) (v r : List Nat)
    (h : decBytes l = some (v, r)) : decBytes (l ++ e) = some (v, r ++ e) := by
  unfold decBytes at h ⊢
  cases hd : decU64 l with
  | none => rw [hd] at h; simp at h
  | some nr =>
    rw [hd] at h
    obtain ⟨n, r0⟩ := nr
    rw [decU64_append l e n r0 hd]
    simp only at h ⊢
    by_cases hle : n ≤ r0.length
    · simp only [hle, if_true] at h
      have hle2 : n ≤ (r0 ++ e).length := by simp; omega
      simp only [hle2, if_true]
      obtain ⟨hv, hr⟩ := Prod.mk.injEq .. ▸ Option.some.injEq .. ▸ h
      rw [List.take_append_of_le_length hle, List.drop_append_of_le_length hle]
      simp_all
    · simp [hle] at h

theorem decBytes_enc (v rest : List Nat) (h : v.length < W) :
    decBytes (encBytes v ++ rest) = some (v, rest) := by
  unfold decBytes encBytes
  rw [List.append_assoc, decU64_enc v.length (v ++ rest) h]
  simp only [List.length_append, Nat.le_add_right, if_pos]
  rw [List.take_append_of_le_length (Nat.le_refl _),
    List.drop_append_of_le_length (Nat.le_refl _)]
  simp

theorem decKV_append (l e : List Nat) (v : Nat × List Nat) (r : List Nat)
    (h : decKV l = some (v, r)) : decKV (l ++ e) = some (v, r ++ e) := by
  unfold decKV at h ⊢
  cases hd : decU64 l with
  | none => rw [hd] at h; simp at h
  | some nr =>
    rw [hd] at h
    obtain ⟨n, r0⟩ := nr
    rw [decU64_append l e n r0 hd]
    simp only at h ⊢
    cases hb : decBytes r0 with
    | none => rw [hb] at h; simp at h
    | some br =>
      rw [hb] at h
      obtain ⟨bv, r1⟩ := br
      rw [decBytes_append r0 e bv r1 hb]
      simp at h ⊢
      exact ⟨h.1, h.2 ▸ rfl⟩

theorem decKV_enc (p : Nat × List Nat) (rest : List Nat)
    (h1 : p.1 < W) (h2 : p.2.length < W) :
    decKV (encKV p ++ rest) = some (p, rest) := by
  unfold decKV encKV
  rw [List.append_assoc, decU64_enc p.1 _ h1]
  simp only
  rw [decBytes_enc p.2 rest h2]

theorem decN_append (f : List Nat → Option (α × List Nat))
    (hf : ∀ l e v r, f l = some (v, r) → f (l ++ e) = some (v, r ++ e)) (k : Nat) :
    ∀ l e vs r, decN f k l = some (vs, r) → decN f k (l ++ e) = some (vs, r ++ e) := by
  induction k with
  | zero => intro l e vs r h; simp [decN] at h ⊢; exact ⟨h.1, h.2 ▸ rfl⟩
  | succ k ih =>
    intro l e vs r h
    simp only [decN] at h ⊢
    cases hd : f l with
    | none => rw [hd] at h; simp at h
    | some ar =>
      rw [hd] at h
      obtain ⟨a, r0⟩ := ar
      rw [hf l e a r0 hd]
      simp only at h ⊢
      cases hn : decN f k r0 with
      | none => rw [hn] at h; simp at h
      | some asr =>
        rw [hn] at h
        obtain ⟨as, r1⟩ := asr
        rw [ih r0 e as r1 hn]
        simp at h ⊢
        exact ⟨h.1.symm ▸ rfl, h.2 ▸ rfl⟩

theorem decN_encList (f : List Nat → Option (α × List Nat)) (g : α → List Nat)
    (l : List α) (hf : ∀ a ∈ l, ∀ rest, f (g a ++ rest) = some (a, rest)) :
    ∀ rest, decN f l.length (encListWith g l ++ rest) = some (l, rest) := by
  induction l with
  | nil => intro rest; simp [encListWith, decN]
  | cons a l ih =>
    intro rest
    simp only [encListWith, List.length_cons, decN, List.append_assoc]
    rw [hf a (by simp) (encListWith g l ++ rest)]
    simp only
    rw [ih (fun a ha rest => hf a (by simp [ha]) rest) rest]

theorem decVec_append (f : List Nat → Option (α × List Nat))
    (hf : ∀ l e v r, f l = some (v, r) → f (l ++ e) = some (v, r ++ e))
    (l e : List Nat) (vs : List α) (r : List Nat)
    (h : decVec f l = some (vs, r)) : decVec f (l ++ e) = some (vs, r ++ e) := by
  unfold decVec at h ⊢
  cases hd : decU64 l with
  | none => rw [hd] at h; simp at h
  | some nr =>
    rw [hd] at h
    obtain ⟨n, r0⟩ := nr
    rw [decU64_append l e n r0 hd]
    exact decN_append f hf n r0 e vs r h

theorem decVec_encVec (f : List Nat → Option (α × List Nat)) (g : α → List Nat)
    (l : List α) (hlen : l.length < W)
    (hf : ∀ a ∈ l, ∀ rest, f (g a ++ rest) = some (a, rest)) (rest : List Nat) :
    decVec f (encVec g l ++ rest) = some (l, rest) := by
  unfold decVec encVec
  rw [List.append_assoc, decU64_enc l.length _ hlen]
  exact decN_encList f g l hf rest

theorem decodeRecord_append (l e : List Nat) (r : JournalRecord) (rest : List Nat)
    (h : decodeRecord l = some (r, rest)) :
    decodeRecord (l ++ e) = some (r, rest ++ e) := by
  unfold decodeRecord at h ⊢
  cases h1 : decU64 l with
  | none => rw [h1] at h; simp at h
  | some hr1 =>
    rw [h1] at h
    obtain ⟨hh, r1⟩ := hr1
    rw [decU64_append l e hh r1 h1]
    simp only at h ⊢
    cases h2 : decU64 r1 with
    | none => rw [h2] at h; simp at h
    | some pr2 =>
      rw [h2] at h
      obtain ⟨pp, r2⟩ := pr2
      rw [decU64_append r1 e pp r2 h2]
      simp only at h ⊢
      cases h3 : decVec decKV r2 with
      | none => rw [h3] at h; simp at h
      | some ir3 =>
        rw [h3] at h
        obtain ⟨ins, r3⟩ := ir3
        rw [decVec_append decKV decKV_append r2 e ins r3 h3]
        simp only at h ⊢
        cases h4 : decVec decU64 r3 with
        | none => rw [h4] at h; simp at h
        | some dr4 =>
          rw [h4] at h
          obtain ⟨del, r4⟩ := dr4
          rw [decVec_append decU64 decU64_append r3 e del r4 h4]
          simp at h ⊢
          exact ⟨h.1 ▸ rfl, h.2 ▸ rfl⟩

theorem decodeRecord_enc (r : JournalRecord) (hw : WFRecord r) (rest : List Nat) :
    decodeRecord (encodeRecord r ++ rest) = some (r, rest) := by
  obtain ⟨h1, h2, h3, h4, h5, h6⟩ := hw
  unfold decodeRecord encodeRecord
  rw [List.append_assoc, List.append_assoc, List.append_assoc,
    decU64_enc r.hash _ h1]
  simp only
  rw [decU64_enc r.parent_hash _ h2]
  simp only
  rw [decVec_encVec decKV encKV r.inserted h3
    (fun p hp rest => decKV_enc p rest (h5 p hp).1 (h5 p hp).2) _]
  simp only
  rw [decVec_encVec decU64 encU64 r.deleted h4
    (fun k hk rest => decU64_enc k rest (h6 k hk)) rest]

/-- Association-list lookup, modelling `HashMap::get` /
`HashMap::contains_key`. -/
def alookup : List (Nat × α) → Nat → Option α
  | [], _ => none
  | (k, v) :: m, x => if x = k then some v else alookup m x

/-- Association-list insertion, modelling `HashMap::insert`: any previous
binding of the key is replaced. -/
def mapIns (m : List (Nat × α)) (k : Nat) (v : α) : List (Nat × α) :=
  (k, v) :: m.filter (fun p => !(p.1 == k))

/-- Association-list removal, modelling `HashMap::remove`. -/
def mapRemove (m : List (Nat × α)) (k : Nat) : List (Nat × α) :=
  m.filter (fun p => !(p.1 == k))

/-- `changeset.inserted.iter().cloned().collect()` into a `HashMap`:
sequential insertion, so a later binding of a key wins. -/
def toMap (l : List (Nat × List Nat)) : List (Nat × List Nat) :=
  l.foldl (fun m kv => mapIns m kv.1 kv.2) []

/-- Concatenation of the levels of a forest (our own `join`). -/
def flattenL : List (List α) → List α
  | [] => []
  | l :: ls => l ++ flattenL ls

/-- Modelled from the spec: `ChangeSet` (the state-db value model is not
under `src/`): inserted pairs and deleted keys, generic in the key type. -/
structure ChangeSet (κ : Type) where
  inserted : List (κ × List Nat)
  deleted : List κ
deriving DecidableEq, Repr

/-- Modelled from the spec: `CommitSet`: a data namespace keyed by `Key`
and a meta namespace keyed by raw bytes. -/
structure CommitSet where
  data : ChangeSet Nat
  meta : ChangeSet (List Nat)
deriving DecidableEq, Repr

/-- `BlockOverlay`: one unfinalized block (hash, its journal key, its
values as a map, its deleted keys). -/
structure BlockOverlay where
  hash : Nat
  journal_key : List Nat
  values : List (Nat × List Nat)
  deleted : List Nat
deriving DecidableEq, Repr

/-- `UnfinalizedOverlay`: the forest of unfinalized blocks. -/
structure UnfinalizedOverlay where
  last_finalized : Option (Nat × Nat)
  levels : List (List BlockOverlay)
  parents : List (Nat × Nat)
deriving DecidableEq, Repr

/-- The byte constant `b"unfinalized_journal"`. -/
def UNFINALIZED_JOURNAL : List Nat :=
  [117, 110, 102, 105, 110, 97, 108, 105, 122, 101, 100, 95,
   106, 111, 117, 114, 110, 97, 108]

/-- The byte constant `b"last_finalized"`. -/
def LAST_FINALIZED : List Nat :=
  [108, 97, 115, 116, 95, 102, 105, 110, 97, 108, 105, 122, 101, 100]

/-- Modelled from the spec: `to_meta_key` concatenates a constant tag with
the deterministic encoding of the key data. -/
def to_meta_key (tag suffixBytes : List Nat) : List Nat := tag ++ suffixBytes

/-- `to_journal_key(block, index)`. -/
def to_journal_key (block index : Nat) : List Nat :=
  to_meta_key UNFINALIZED_JOURNAL (encU64 block ++ encU64 index)

/-- The meta key of the last-finalized pointer (`encode(())` is empty). -/
def LAST_FINALIZED_KEY : List Nat := to_meta_key LAST_FINALIZED []

/-- Modelled from the spec: encoding of the `(BlockHash, u64)`
last-finalized pointer. -/
def encodeLF (p : Nat × Nat) : List Nat := encU64 p.1 ++ encU64 p.2

/-- Modelled from the spec: decoding of the last-finalized pointer. -/
def decodeLF (l : List Nat) : Option ((Nat × Nat) × List Nat) :=
  match decU64 l with
  | some (h, r) =>
    match decU64 r with
    | some (n, r2) => some ((h, n), r2)
    | none => none
  | none => none

/-- `front_block_number`: `last_finalized.number + 1`, or 0. -/
def frontBlockNumber (s : UnfinalizedOverlay) : Nat :=
  match s.last_finalized with
  | some (_, n) => winc n
  | none => 0

/-- The shared tail of `insert`: level selection, overlay construction and
journal write (lines 144-173 of `unfinalized.rs`).  `metaPre` is the
last-finalized meta write pushed by the bootstrap branch.  `none` models a
panic of the `expect` on level lookup. -/
def insertGo (s : UnfinalizedOverlay) (h n p : Nat) (cs : ChangeSet Nat)
    (metaPre : List (List Nat × List Nat)) : Option (CommitSet × UnfinalizedOverlay) :=
  let newLevel : Prop := s.levels = [] ∨ n = (frontBlockNumber s + s.levels.length) % W
  let i := if newLevel then s.levels.length else n - frontBlockNumber s
  let levels1 := if newLevel then s.levels ++ [[]] else s.levels
  if i < levels1.length then
    let lvl := levels1.getD i []
    let index := lvl.length
    let jk := to_journal_key n index
    let ov : BlockOverlay := ⟨h, jk, toMap cs.inserted, cs.deleted⟩
    let rec0 : JournalRecord := ⟨h, p, cs.inserted, cs.deleted⟩
    some ({ data := ⟨[], []⟩,
            meta := ⟨metaPre ++ [(jk, encodeRecord rec0)], []⟩ },
          { last_finalized := s.last_finalized,
            levels := levels1.set i (lvl ++ [ov]),
            parents := mapIns s.parents h p })
  else none

/-- `UnfinalizedOverlay::insert`.  `none` models a failed `assert!`
(a loud abort); `some` carries the returned `CommitSet` and the updated
overlay. -/
def insertOp (s : UnfinalizedOverlay) (h n p : Nat) (cs : ChangeSet Nat) :
    Option (CommitSet × UnfinalizedOverlay) :=
  if s.levels = [] ∧ s.last_finalized = none then
    insertGo { s with last_finalized := some (p, wsub1 n) } h n p cs
      [(LAST_FINALIZED_KEY, encodeLF (p, wsub1 n))]
  else if s.last_finalized.isSome then
    if frontBlockNumber s ≤ n ∧ n < (frontBlockNumber s + s.levels.length + 1) % W then
      if n = frontBlockNumber s then
        if s.last_finalized = some (p, wsub1 n) then insertGo s h n p cs [] else none
      else
        if (alookup s.parents p).isSome then insertGo s h n p cs [] else none
    else none
  else
    insertGo s h n p cs []

/-- The `level.retain` closure inside `discard`: walks one level left to
right and, for every overlay whose recorded parent is the hash being
discarded, removes its parent entry, records its journal key and descends
into the sublevels through `dis` (the recursive `discard` call).  This is
the total computational skeleton: it keeps an overlay whose hash has no
parent entry, whereas the source's `expect` on that lookup (line 185)
panics there.  The panic is modelled faithfully by `retainAuxP` below;
`retainAuxP_agree` and `discardFP_agree` prove the two agree exactly on
states satisfying the `qed` invariant the `expect` asserts (every scanned
overlay has a `parents` entry). -/
def retainAux
    (dis : List (List BlockOverlay) → List (Nat × Nat) → List (List Nat) → Nat →
      List (List BlockOverlay) × List (Nat × Nat) × List (List Nat)) :
    List BlockOverlay → List (List BlockOverlay) → List (Nat × Nat) →
    List (List Nat) → Nat →
    List BlockOverlay × List (List BlockOverlay) × List (Nat × Nat) × List (List Nat)
  | [], subs, ps, js, _ => ([], subs, ps, js)
  | o :: os, subs, ps, js, h =>
    match alookup ps o.hash with
    | some q =>
      if q = h then
        let ps1 := mapRemove ps o.hash
        let js1 := js ++ [o.journal_key]
        let r := dis subs ps1 js1 o.hash
        retainAux dis os r.1 r.2.1 r.2.2 h
      else
        let r := retainAux dis os subs ps js h
        (o :: r.1, r.2.1, r.2.2.1, r.2.2.2)
    | none =>
      let r := retainAux dis os subs ps js h
      (o :: r.1, r.2.1, r.2.2.1, r.2.2.2)

/-- `UnfinalizedOverlay::discard`, fuelled by the number of remaining
levels (one fuel unit is spent per level of depth, so
`fuel = levels.length` is always enough; the zero-fuel branch is then
unreachable). -/
def discardF : Nat → List (List BlockOverlay) → List (Nat × Nat) →
    List (List Nat) → Nat → List (List BlockOverlay) × List (Nat × Nat) × List (List Nat)
  | 0, levels, ps, js, _ => (levels, ps, js)
  | f+1, levels, ps, js, h =>
    match levels with
    | [] => ([], ps, js)
    | lvl :: subs =>
      let r := retainAux (discardF f) lvl subs ps js h
      (r.1 :: r.2.1, r.2.2.1, r.2.2.2)

/-- `discard` as called from `finalize` (the fuel is the depth of the
remaining forest, which is always sufficient). -/
def discardTop (levels : List (List BlockOverlay)) (ps : List (Nat × Nat))
    (js : List (List Nat)) (h : Nat) :
    List (List BlockOverlay) × List (Nat × Nat) × List (List Nat) :=
  discardF levels.length levels ps js h

/-- The `for (i, overlay) in level.into_iter().enumerate()` loop of
`finalize` (lines 212-228): removes each hash from `parents`, flushes the
winner at position `index` into the data changeset, prunes the subtree of
every loser, and collects discarded journal keys. -/
def finLoop (index : Nat) : List BlockOverlay → Nat → List (List BlockOverlay) →
    List (Nat × Nat) → List (List Nat) → ChangeSet Nat →
    List (List BlockOverlay) × List (Nat × Nat) × List (List Nat) × ChangeSet Nat
  | [], _, lvls, ps, js, data => (lvls, ps, js, data)
  | o :: os, i, lvls, ps, js, data =>
    let ps1 := mapRemove ps o.hash
    if i = index then
      finLoop index os (i+1) lvls ps1 (js ++ [o.journal_key]) ⟨o.values, o.deleted⟩
    else
      let r := discardTop lvls ps1 js o.hash
      finLoop index os (i+1) r.1 r.2.1 (r.2.2 ++ [o.journal_key]) data

/-- `UnfinalizedOverlay::finalize` over the total `discard` skeleton.
`none` models the two direct `expect` panics (empty overlay, hash not in
the front level); the third panic, inside the recursive `discard`
(line 185), is modelled by `finalizeOpP` below, which `finalizeOpP_agree`
proves equal to this function on states with pairwise-distinct hashes and
full `parents` coverage. -/
def finalizeOp (s : UnfinalizedOverlay) (h : Nat) :
    Option (CommitSet × UnfinalizedOverlay) :=
  match s.levels with
  | [] => none
  | lvl :: rest =>
    match lvl.findIdx? (fun o => o.hash == h) with
    | none => none
    | some index =>
      let r := finLoop index lvl 0 rest s.parents [] ⟨[], []⟩
      let lf := (h, frontBlockNumber s)
      some ({ data := r.2.2.2,
              meta := ⟨[(LAST_FINALIZED_KEY, encodeLF lf)], r.2.2.1⟩ },
            { last_finalized := some lf,
              levels := r.1,
              parents := r.2.1 })

/-- The `level.retain` closure of `discard` with the `expect` on the parent
lookup (line 185: `parents.get(&overlay.hash).expect("there is a parent
entry for each entry in levels; qed")`) modelled faithfully: an overlay
whose hash has no `parents` entry makes the whole walk return `none` (a
panic).  `dis` is the recursive `discard` call, itself fallible. -/
def retainAuxP
    (dis : List (List BlockOverlay) → List (Nat × Nat) → List (List Nat) → Nat →
      Option (List (List BlockOverlay) × List (Nat × Nat) × List (List Nat))) :
    List BlockOverlay → List (List BlockOverlay) → List (Nat × Nat) →
    List (List Nat) → Nat →
    Option (List BlockOverlay × List (List BlockOverlay) × List (Nat × Nat) ×
      List (List Nat))
  | [], subs, ps, js, _ => some ([], subs, ps, js)
  | o :: os, subs, ps, js, h =>
    match alookup ps o.hash with
    | some q =>
      if q = h then
        match dis subs (mapRemove ps o.hash) (js ++ [o.journal_key]) o.hash with
        | some r => retainAuxP dis os r.1 r.2.1 r.2.2 h
        | none => none
      else
        match retainAuxP dis os subs ps js h with
        | some r => some (o :: r.1, r.2.1, r.2.2.1, r.2.2.2)
        | none => none
    | none => none

/-- `UnfinalizedOverlay::discard` with the line-185 panic modelled
faithfully, fuelled like `discardF`. -/
def discardFP : Nat → List (List BlockOverlay) → List (Nat × Nat) →
    List (List Nat) → Nat →
    Option (List (List BlockOverlay) × List (Nat × Nat) × List (List Nat))
  | 0, levels, ps, js, _ => some (levels, ps, js)
  | f+1, levels, ps, js, h =>
    match levels with
    | [] => some ([], ps, js)
    | lvl :: subs =>
      match retainAuxP (discardFP f) lvl subs ps js h with
      | some r => some (r.1 :: r.2.1, r.2.2.1, r.2.2.2)
      | none => none

/-- Panic-aware `discard` as called from `finalize`. -/
def discardTopP (levels : List (List BlockOverlay)) (ps : List (Nat × Nat))
    (js : List (List Nat)) (h : Nat) :
    Option (List (List BlockOverlay) × List (Nat × Nat) × List (List Nat)) :=
  discardFP levels.length levels ps js h

/-- The `finalize` loop with the panic of the inner `discard` propagated. -/
def finLoopP (index : Nat) : List BlockOverlay → Nat → List (List BlockOverlay) →
    List (Nat × Nat) → List (List Nat) → ChangeSet Nat →
    Option (List (List BlockOverlay) × List (Nat × Nat) × List (List Nat) ×
      ChangeSet Nat)
  | [], _, lvls, ps, js, data => some (lvls, ps, js, data)
  | o :: os, i, lvls, ps, js, data =>
    let ps1 := mapRemove ps o.hash
    if i = index then
      finLoopP index os (i+1) lvls ps1 (js ++ [o.journal_key]) ⟨o.values, o.deleted⟩
    else
      match discardTopP lvls ps1 js o.hash with
      | some r => finLoopP index os (i+1) r.1 r.2.1 (r.2.2 ++ [o.journal_key]) data
      | none => none

/-- `UnfinalizedOverlay::finalize` with every panic modelled as `none`: the
`expect` on an empty overlay, the `expect` on a hash missing from the front
level, and the line-185 `expect` inside the recursive `discard`, which
fires when a scanned overlay lacks a `parents` entry. -/
def finalizeOpP (s : UnfinalizedOverlay) (h : Nat) :
    Option (CommitSet × UnfinalizedOverlay) :=
  match s.levels with
  | [] => none
  | lvl :: rest =>
    match lvl.findIdx? (fun o => o.hash == h) with
    | none => none
    | some index =>
      match finLoopP index lvl 0 rest s.parents [] ⟨[], []⟩ with
      | none => none
      | some r =>
        let lf := (h, frontBlockNumber s)
        some ({ data := r.2.2.2,
                meta := ⟨[(LAST_FINALIZED_KEY, encodeLF lf)], r.2.2.1⟩ },
              { last_finalized := some lf,
                levels := r.1,
                parents := r.2.1 })

/-- Inner loop of `get`: first overlay of a level holding the key. -/
def getLevel : List BlockOverlay → Nat → Option (List Nat)
  | [], _ => none
  | o :: os, k =>
    match alookup o.values k with
    | some v => some v
    | none => getLevel os k

/-- Outer loop of `get`: levels front to back. -/
def getLevels : List (List BlockOverlay) → Nat → Option (List Nat)
  | [], _ => none
  | lvl :: rest, k =>
    match getLevel lvl k with
    | some v => some v
    | none => getLevels rest k

/-- `UnfinalizedOverlay::get`. -/
def getOp (s : UnfinalizedOverlay) (k : Nat) : Option (List Nat) :=
  getLevels s.levels k

/-- Modelled from the spec: the meta store, an association of meta keys to
byte blobs, with `get_meta` as read-only lookup. -/
def get_meta (db : List (List Nat × List Nat)) (k : List Nat) : Option (List Nat) :=
  match db with
  | [] => none
  | (k0, v) :: d => if k = k0 then some v else get_meta d k

/-- Modelled from the spec: the embedder applies a `CommitSet` atomically to
the meta store: journal keys in `meta.deleted` are erased and the pairs in
`meta.inserted` are written. -/
def applyCommit (db : List (List Nat × List Nat)) (c : CommitSet) :
    List (List Nat × List Nat) :=
  let db1 := c.meta.deleted.foldl (fun d k => d.filter (fun p => !(p.1 == k))) db
  c.meta.inserted.foldl (fun d kv => (kv.1, kv.2) :: d.filter (fun p => !(p.1 == kv.1))) db1

/-- Inner loop of `UnfinalizedOverlay::new`: read the journal entries of
one block number at indices `index, index+1, ...` until the first miss,
returning the overlays together with their `(hash, parent_hash)` pairs.
The fuel is always sufficient: distinct journal hits consume distinct store
keys, so at most `db.length` indices can hit. -/
def readLevel (db : List (List Nat × List Nat)) (block : Nat) :
    Nat → Nat → Except Unit (List (BlockOverlay × (Nat × Nat)))
  | 0, _ => .ok []
  | f+1, index =>
    match get_meta db (to_journal_key block index) with
    | none => .ok []
    | some bytes =>
      match decodeRecord bytes with
      | none => .error ()
      | some (r, _) =>
        match readLevel db block f (index + 1) with
        | .ok rest =>
          .ok ((⟨r.hash, to_journal_key block index, toMap r.inserted, r.deleted⟩,
            (r.hash, r.parent_hash)) :: rest)
        | .error e => .error e

/-- Outer loop of `UnfinalizedOverlay::new`: read levels at consecutive
block numbers until the first empty level, accumulating `parents` in
journal order. -/
def readLevels (db : List (List Nat × List Nat)) :
    Nat → Nat → List (Nat × Nat) →
    Except Unit (List (List BlockOverlay) × List (Nat × Nat))
  | 0, _, ps => .ok ([], ps)
  | f+1, block, ps =>
    match readLevel db block (db.length + 1) 0 with
    | .error e => .error e
    | .ok [] => .ok ([], ps)
    | .ok lvl =>
      let ps1 := lvl.foldl (fun m pr => mapIns m pr.2.1 pr.2.2) ps
      match readLevels db f (winc block) ps1 with
      | .ok (rest, ps2) => .ok ((lvl.map (·.1)) :: rest, ps2)
      | .error e => .error e

/-- `UnfinalizedOverlay::new`: read the last-finalized pointer and replay
the journal.  `.error` models the `Decoding` error (the model store cannot
fail, so `Error::Db` does not arise). -/
def newOverlay (db : List (List Nat × List Nat)) :
    Except Unit UnfinalizedOverlay :=
  match get_meta db LAST_FINALIZED_KEY with
  | none => .ok ⟨none, [], []⟩
  | some buf =>
    match decodeLF buf with
    | none => .error ()
    | some ((h, n), _) =>
      match readLevels db (db.length + 1) (winc n) [] with
      | .ok (lvls, ps) => .ok ⟨some (h, n), lvls, ps⟩
      | .error e => .error e

/-- Claim C9: for every journal record, decoding its encoding recovers it
exactly (fields written hash, parent_hash, inserted, deleted in that order,
each length-prefixed), and decoding any strict prefix of the encoding fails
with `none` (surfacing as the `Decoding` error) instead of producing a
record. -/
theorem c9_journal_codec_round_trip (r : JournalRecord) (hw : WFRecord r) :
    decodeRecord (encodeRecord r) = some (r, []) ∧
      ∀ k, k < (encodeRecord r).length → decodeRecord ((encodeRecord r).take k) = none := by
  have hrt : decodeRecord (encodeRecord r ++ []) = some (r, []) := decodeRecord_enc r hw []
  rw [List.append_nil] at hrt
  refine ⟨hrt, ?_⟩
  intro k hk
  by_contra hne
  obtain ⟨⟨r2, rest⟩, hsome⟩ := Option.ne_none_iff_exists'.mp hne
  have hext := decodeRecord_append _ ((encodeRecord r).drop k) r2 rest hsome
  rw [List.take_append_drop, hrt] at hext
  have h1 := (Option.some.injEq _ _).mp hext
  have h2 : rest ++ (encodeRecord r).drop k = [] := (congrArg Prod.snd h1).symm
  have h3 : (encodeRecord r).drop k = [] := (List.append_eq_nil.mp h2).2
  have h4 : (encodeRecord r).length ≤ k := List.drop_eq_nil_iff.mp h3
  omega

/-- Witness for C9 at a concrete record. -/
theorem c9_witness :
    decodeRecord (encodeRecord ⟨1, 2, [(3, [7, 8])], [4]⟩) =
        some (⟨1, 2, [(3, [7, 8])], [4]⟩, []) ∧
      ∀ k, k < (encodeRecord ⟨1, 2, [(3, [7, 8])], [4]⟩).length →
        decodeRecord ((encodeRecord ⟨1, 2, [(3, [7, 8])], [4]⟩).take k) = none :=
  c9_journal_codec_round_trip ⟨1, 2, [(3, [7, 8])], [4]⟩ (by decide)

/-- Claim C10: on the bootstrap insert (empty forest, absent
`last_finalized`), nothing guards `number = 0`: the insert succeeds and the
synthesized last-finalized number is `number - 1` in wrapping `u64`
arithmetic, i.e. `2^64 - 1`. -/
theorem c10_bootstrap_underflow (h p : Nat) (cs : ChangeSet Nat) :
    (insertOp ⟨none, [], []⟩ h 0 p cs).map (fun r => r.2.last_finalized) =
      some (some (p, W - 1)) := by
  simp [insertOp, insertGo, frontBlockNumber, wsub1]

/-- The spec's description of `get`, stated independently of the loop
structure: the first overlay containing the key, iterating levels front to
back and overlays within a level in insertion order. -/
def getSpec (s : UnfinalizedOverlay) (k : Nat) : Option (List Nat) :=
  match (flattenL s.levels).find? (fun o => (alookup o.values k).isSome) with
  | some o => alookup o.values k
  | none => none

/-- The overlay with every `deleted` sequence blanked, used to state that
`get` ignores deletions. -/
def clearDeleted (s : UnfinalizedOverlay) : UnfinalizedOverlay :=
  { s with levels := s.levels.map (List.map (fun o => { o with deleted := [] })) }

theorem getLevel_eq_find (lvl : List BlockOverlay) (k : Nat) :
    getLevel lvl k =
      match lvl.find? (fun o => (alookup o.values k).isSome) with
      | some o => alookup o.values k
      | none => none := by
  induction lvl with
  | nil => simp [getLevel, List.find?]
  | cons o os ih =>
    simp only [getLevel, List.find?]
    cases hv : alookup o.values k with
    | some v => simp [hv]
    | none => simp [hv, ih]

/-- Claim C8: `get` returns the value of the first overlay containing the
key in front-to-back, insertion-order iteration (and `none` when no overlay
contains it); the `deleted` sequences have no effect on `get`; and `get` is
total by construction (it returns an `Option`, never an error). -/
theorem c8_get_first_match (s : UnfinalizedOverlay) (k : Nat) :
    getOp s k = getSpec s k ∧ getOp (clearDeleted s) k = getOp s k := by
  constructor
  · unfold getOp getSpec
    induction s.levels with
    | nil => simp [getLevels, flattenL, List.find?]
    | cons lvl rest ih =>
      simp only [getLevels, flattenL, List.find?_append]
      rw [getLevel_eq_find]
      cases hf : lvl.find? (fun o => (alookup o.values k).isSome) with
      | some o =>
        have hp := List.find?_some hf
        cases hv : alookup o.values k with
        | some v => simp [hf, hv]
        | none => rw [hv] at hp; simp at hp
      | none => simp [hf, ih]
  · unfold getOp clearDeleted
    simp only
    induction s.levels with
    | nil => simp [getLevels]
    | cons lvl rest ih =>
      simp only [List.map_cons, getLevels]
      have hlvl : getLevel (lvl.map (fun o => { o with deleted := [] })) k = getLevel lvl k := by
        induction lvl with
        | nil => simp [getLevel]
        | cons o os ih2 =>
          simp only [List.map_cons, getLevel]
          cases hv : alookup o.values k with
          | some v => simp [hv]
          | none => simp [hv, ih2]
      rw [hlvl, ih]

/-- Claim C7: the `CommitSet` returned by a successful `insert` has no data
writes and no meta deletions; its meta inserts are exactly the journal
record of the new block, preceded by the encoded synthesized last-finalized
pointer exactly when this is the bootstrap insert. -/
theorem c7_insert_commit_shape (s : UnfinalizedOverlay) (h n p : Nat)
    (cs : ChangeSet Nat) (c : CommitSet) (s2 : UnfinalizedOverlay)
    (hc : insertOp s h n p cs = some (c, s2)) :
    c.data.inserted = [] ∧ c.data.deleted = [] ∧ c.meta.deleted = [] ∧
      ∃ idx, c.meta.inserted =
        (if s.levels = [] ∧ s.last_finalized = none
          then [(LAST_FINALIZED_KEY, encodeLF (p, wsub1 n))] else []) ++
          [(to_journal_key n idx, encodeRecord ⟨h, p, cs.inserted, cs.deleted⟩)] := by
  have hgo : ∀ s1 mp, insertGo s1 h n p cs mp = some (c, s2) →
      c.data.inserted = [] ∧ c.data.deleted = [] ∧ c.meta.deleted = [] ∧
        ∃ idx, c.meta.inserted = mp ++
          [(to_journal_key n idx, encodeRecord ⟨h, p, cs.inserted, cs.deleted⟩)] := by
    intro s1 mp hg
    unfold insertGo at hg
    by_cases hi : (if s1.levels = [] ∨ n = (frontBlockNumber s1 + s1.levels.length) % W
        then s1.levels.length else n - frontBlockNumber s1) <
        (if s1.levels = [] ∨ n = (frontBlockNumber s1 + s1.levels.length) % W
          then s1.levels ++ [[]] else s1.levels).length
    · rw [if_pos hi] at hg
      obtain ⟨hc1, _⟩ := Prod.mk.injEq .. ▸ Option.some.injEq .. ▸ hg
      refine ⟨?_, ?_, ?_, ?_⟩
      · rw [← hc1]
      · rw [← hc1]
      · rw [← hc1]
      · exact ⟨_, by rw [← hc1]⟩
    · rw [if_neg hi] at hg
      exact absurd hg (by simp)
  unfold insertOp at hc
  by_cases hb : s.levels = [] ∧ s.last_finalized = none
  · rw [if_pos hb] at hc
    have := hgo _ _ hc
    simpa [hb] using this
  · rw [if_neg hb] at hc
    rw [if_neg hb]
    by_cases hlf : s.last_finalized.isSome
    · rw [if_pos hlf] at hc
      by_cases hrange : frontBlockNumber s ≤ n ∧
          n < (frontBlockNumber s + s.levels.length + 1) % W
      · rw [if_pos hrange] at hc
        by_cases hfr : n = frontBlockNumber s
        · rw [if_pos hfr] at hc
          by_cases hpl : s.last_finalized = some (p, wsub1 n)
          · rw [if_pos hpl] at hc
            have := hgo _ _ hc
            simpa using this
          · rw [if_neg hpl] at hc; exact absurd hc (by simp)
        · rw [if_neg hfr] at hc
          by_cases hpp : (alookup s.parents p).isSome
          · rw [if_pos hpp] at hc
            have := hgo _ _ hc
            simpa using this
          · rw [if_neg hpp] at hc; exact absurd hc (by simp)
      · rw [if_neg hrange] at hc; exact absurd hc (by simp)
    · rw [if_neg hlf] at hc
      have := hgo _ _ hc
      simpa using this

/-- Witness for C7 on a concrete bootstrap insert. -/
theorem c7_witness :
    ∃ c s2, insertOp ⟨none, [], []⟩ 5 1 0 ⟨[(9, [1])], [3]⟩ = some (c, s2) ∧
      c.data.inserted = [] ∧ c.data.deleted = [] ∧ c.meta.deleted = [] ∧
      ∃ idx, c.meta.inserted =
        [(LAST_FINALIZED_KEY, encodeLF (0, wsub1 1))] ++
          [(to_journal_key 1 idx, encodeRecord ⟨5, 0, [(9, [1])], [3]⟩)] := by
  obtain ⟨c, s2, hr⟩ : ∃ c s2,
      insertOp ⟨none, [], []⟩ 5 1 0 ⟨[(9, [1])], [3]⟩ = some (c, s2) := by
    cases hx : insertOp ⟨none, [], []⟩ 5 1 0 ⟨[(9, [1])], [3]⟩ with
    | none => exact absurd hx (by decide)
    | some r =>
      obtain ⟨c0, s0⟩ := r
      exact ⟨c0, s0, rfl⟩

  refine ⟨c, s2, hr, ?_⟩
  have := c7_insert_commit_shape ⟨none, [], []⟩ 5 1 0 ⟨[(9, [1])], [3]⟩ c s2 hr
  simpa using this

theorem wsub1_winc (n : Nat) (h : n < W) : wsub1 (winc n) = n := by
  simp only [winc, wsub1, W] at h ⊢
  omega

theorem insertGo_isSome (s : UnfinalizedOverlay) (h n p : Nat) (cs : ChangeSet Nat)
    (mp : List (List Nat × List Nat))
    (hcond : s.levels = [] ∨ n = (frontBlockNumber s + s.levels.length) % W ∨
      n - frontBlockNumber s < s.levels.length) :
    (insertGo s h n p cs mp).isSome := by
  simp only [insertGo]
  split
  · next hnl => simp
  · next hnl =>
    have hlt : n - frontBlockNumber s < s.levels.length := by
      rcases hcond with h1 | h2 | h3
      · exact absurd (Or.inl h1) hnl
      · exact absurd (Or.inr h2) hnl
      · exact h3
    simp [hlt]

/-- The overlay after a bootstrap insert of hash 5 at number 1 with parent
hash 0, used as a concrete state for witnesses and counterexamples. -/
def c6s : UnfinalizedOverlay :=
  ((insertOp ⟨none, [], []⟩ 5 1 0 ⟨[], []⟩).map (fun r => r.2)).getD ⟨none, [], []⟩


theorem insertGo_isSome_irrel (s : UnfinalizedOverlay) (n p : Nat) (cs : ChangeSet Nat)
    (mp : List (List Nat × List Nat)) (h1 h2 : Nat) :
    (insertGo s h1 n p cs mp).isSome = (insertGo s h2 n p cs mp).isSome := by
  simp only [insertGo]
  by_cases hnl : s.levels = [] ∨ n = (frontBlockNumber s + s.levels.length) % W
  · simp only [if_pos hnl]
    by_cases hg : s.levels.length < (s.levels ++ [[]]).length
    · simp only [if_pos hg, Option.isSome_some]
    · simp only [if_neg hg]
  · simp only [if_neg hnl]
    by_cases hg : n - frontBlockNumber s < s.levels.length
    · simp only [if_pos hg, Option.isSome_some]
    · simp only [if_neg hg]

/-- Claim C4 counterexample: after the bootstrap insert of hash 5, hash 5
is a key of `parents`, yet inserting hash 5 again on the same level with
the same valid parent succeeds (and the forest then holds two overlays
with hash 5) instead of aborting. -/
theorem c4_counterexample :
    alookup c6s.parents 5 = some 0 ∧
      (insertOp c6s 5 1 0 ⟨[], []⟩).isSome = true ∧
      ((insertOp c6s 5 1 0 ⟨[], []⟩).map
        (fun r => ((flattenL r.2.levels).filter (fun o => o.hash == 5)).length)).getD 0
        = 2 := by
  decide

/-- Claim C4 (amended): `insert` performs no hash-uniqueness check at all:
whether it aborts is independent of the inserted hash, so a duplicate hash
(same level included) is accepted whenever the number/parent preconditions
hold. -/
theorem c4_no_hash_uniqueness_check (s : UnfinalizedOverlay) (n p : Nat)
    (cs : ChangeSet Nat) (h1 h2 : Nat) :
    (insertOp s h1 n p cs).isSome = (insertOp s h2 n p cs).isSome := by
  unfold insertOp
  by_cases hb : s.levels = [] ∧ s.last_finalized = none
  · rw [if_pos hb, if_pos hb]
    exact insertGo_isSome_irrel _ n p cs _ h1 h2
  · rw [if_neg hb, if_neg hb]
    by_cases hlf : s.last_finalized.isSome
    · rw [if_pos hlf, if_pos hlf]
      by_cases hrange : frontBlockNumber s ≤ n ∧
          n < (frontBlockNumber s + s.levels.length + 1) % W
      · rw [if_pos hrange, if_pos hrange]
        by_cases hfr : n = frontBlockNumber s
        · rw [if_pos hfr, if_pos hfr]
          by_cases hpl : s.last_finalized = some (p, wsub1 n)
          · rw [if_pos hpl, if_pos hpl]
            exact insertGo_isSome_irrel _ n p cs _ h1 h2
          · rw [if_neg hpl, if_neg hpl]
        · rw [if_neg hfr, if_neg hfr]
          by_cases hpp : (alookup s.parents p).isSome
          · rw [if_pos hpp, if_pos hpp]
            exact insertGo_isSome_irrel _ n p cs _ h1 h2
          · rw [if_neg hpp, if_neg hpp]
      · rw [if_neg hrange, if_neg hrange]
    · rw [if_neg hlf, if_neg hlf]
      exact insertGo_isSome_irrel _ n p cs _ h1 h2

/-- One step of the embedder loop: perform an overlay operation and apply
the returned `CommitSet` to the meta store. -/
def stepOp (st : Option (List (List Nat × List Nat) × UnfinalizedOverlay))
    (f : UnfinalizedOverlay → Option (CommitSet × UnfinalizedOverlay)) :
    Option (List (List Nat × List Nat) × UnfinalizedOverlay) :=
  match st with
  | none => none
  | some (db, s) =>
    match f s with
    | none => none
    | some (c, s2) => some (applyCommit db c, s2)

/-- The C1 scenario: bootstrap insert of sibling roots 1 and 2 at number 1,
children 3 (of 1) and 4 (of 2) at number 2, then finalize root 2.  The
discard of root 1's subtree deletes journal entry (2,0) while the retained
child 4 keeps journal index (2,1), leaving an index gap. -/
def scenC1 : Option (List (List Nat × List Nat) × UnfinalizedOverlay) :=
  stepOp (stepOp (stepOp (stepOp (stepOp (some ([], ⟨none, [], []⟩))
    (fun s => insertOp s 1 1 0 ⟨[], []⟩))
    (fun s => insertOp s 2 1 0 ⟨[], []⟩))
    (fun s => insertOp s 3 2 1 ⟨[], []⟩))
    (fun s => insertOp s 4 2 2 ⟨[], []⟩))
    (fun s => finalizeOp s 2)

/-- Claim C1 (journal replay gap): the scenario succeeds, its in-memory
overlay ends with one level (holding the overlay of hash 4) and
`last_finalized = (2, 1)`, but reconstructing from the store to which every
`CommitSet` was applied yields an overlay with no levels and no parents:
`new(db)` is not structurally equal to the in-memory overlay. -/
theorem c1_replay_loses_retained_child :
    scenC1.isSome = true ∧
      (scenC1.map (fun r => r.2.levels.length)).getD 0 = 1 ∧
      (scenC1.map (fun r => (flattenL r.2.levels).map (fun o => o.hash))).getD [] = [4] ∧
      (scenC1.map (fun r => r.2.last_finalized)).getD none = some (2, 1) ∧
      (scenC1.map (fun r => (newOverlay r.1).toOption)).getD none =
        some ⟨some (2, 1), [], []⟩ := by
  decide

theorem alookup_isSome_iff_mem (m : List (Nat × α)) (k : Nat) :
    (alookup m k).isSome ↔ k ∈ m.map Prod.fst := by
  induction m with
  | nil => simp [alookup]
  | cons e m ih =>
    obtain ⟨k0, v⟩ := e
    simp only [alookup, List.map_cons, List.mem_cons]
    by_cases hk : k = k0
    · simp [hk]
    · simp [hk, ih]

theorem alookup_eq_none_iff (m : List (Nat × α)) (k : Nat) :
    alookup m k = none ↔ ¬ k ∈ m.map Prod.fst := by
  rw [← alookup_isSome_iff_mem, Option.not_isSome_iff_eq_none]

theorem alookup_filter_key (m : List (Nat × α)) (p : Nat → Bool) (k : Nat) :
    alookup (m.filter (fun e => p e.1)) k = if p k then alookup m k else none := by
  induction m with
  | nil => simp [alookup]
  | cons e m ih =>
    obtain ⟨k0, v⟩ := e
    by_cases hp : p k0
    · rw [List.filter_cons_of_pos (by simpa using hp)]
      by_cases hk : k = k0
      · subst hk; simp [alookup, hp]
      · simp only [alookup, if_neg hk]; exact ih
    · rw [List.filter_cons_of_neg (by simpa using hp)]
      by_cases hk : k = k0
      · subst hk; simp [alookup, hp, ih]
      · simp only [alookup, if_neg hk]; exact ih

theorem alookup_mapRemove (m : List (Nat × α)) (k x : Nat) :
    alookup (mapRemove m k) x = if x = k then none else alookup m x := by
  unfold mapRemove
  rw [alookup_filter_key m (fun y => !(y == k)) x]
  by_cases hx : x = k
  · simp [hx]
  · simp [hx]

theorem alookup_mapIns (m : List (Nat × α)) (k : Nat) (v : α) (x : Nat) :
    alookup (mapIns m k v) x = if x = k then some v else alookup m x := by
  unfold mapIns
  by_cases hx : x = k
  · simp [alookup, hx]
  · simp only [alookup, if_neg hx]
    rw [alookup_filter_key m (fun y => !(y == k)) x]
    simp [hx]

/-- A map whose keys are pairwise distinct (true of any `HashMap`). -/
def NodupKeys (m : List (Nat × α)) : Prop := (m.map Prod.fst).Nodup

theorem NodupKeys_filter (m : List (Nat × α)) (p : Nat × α → Bool)
    (h : NodupKeys m) : NodupKeys (m.filter p) :=
  List.Nodup.sublist (List.Sublist.map Prod.fst (List.filter_sublist m)) h

theorem NodupKeys_mapIns (m : List (Nat × α)) (k : Nat) (v : α)
    (h : NodupKeys m) : NodupKeys (mapIns m k v) := by
  unfold NodupKeys mapIns
  simp only [List.map_cons, List.nodup_cons]
  constructor
  · intro hmem
    obtain ⟨⟨k1, v1⟩, hm, he⟩ := List.mem_map.mp hmem
    have := List.of_mem_filter hm
    simp at this
    exact this he
  · exact NodupKeys_filter m _ h

theorem flattenL_append (a b : List (List α)) :
    flattenL (a ++ b) = flattenL a ++ flattenL b := by
  induction a with
  | nil => simp [flattenL]
  | cons x a ih => simp [flattenL, ih]

theorem mem_flattenL (L : List (List α)) (x : α) :
    x ∈ flattenL L ↔ ∃ l ∈ L, x ∈ l := by
  induction L with
  | nil => simp [flattenL]
  | cons l L ih => simp [flattenL, ih]

/-- The hashes of every overlay in a forest, front to back. -/
def hashesOf (L : List (List BlockOverlay)) : List Nat :=
  (flattenL L).map (fun o => o.hash)

theorem hashesOf_cons (lvl : List BlockOverlay) (L : List (List BlockOverlay)) :
    hashesOf (lvl :: L) = lvl.map (fun o => o.hash) ++ hashesOf L := by
  simp [hashesOf, flattenL]

/-- Whether an overlay's recorded parent (its entry in `parents`) lies in
the given root set; overlays without a parent entry are treated as not
chained (matching the model of the `expect` in `discard`). -/
def parentIn (ps : List (Nat × Nat)) (roots : List Nat) (o : BlockOverlay) : Bool :=
  match alookup ps o.hash with
  | some q => decide (q ∈ roots)
  | none => false

/-- The spec's worklist formulation of subtree pruning (design note 9(b)):
level by level, discard every overlay whose parent is in the current root
set and promote the discarded hashes into the root set.  Returns the kept
levels and the list of discarded overlays. -/
def pruneSpec (ps : List (Nat × Nat)) : List Nat → List (List BlockOverlay) →
    List (List BlockOverlay) × List BlockOverlay
  | _, [] => ([], [])
  | roots, lvl :: rest =>
    let d := lvl.filter (fun o => parentIn ps roots o)
    let r := pruneSpec ps (d.map (fun o => o.hash)) rest
    ((lvl.filter (fun o => !(parentIn ps roots o))) :: r.1, d ++ r.2)

theorem parentIn_congr_roots (ps : List (Nat × Nat)) (r1 r2 : List Nat)
    (o : BlockOverlay) (h : ∀ q, q ∈ r1 ↔ q ∈ r2) :
    parentIn ps r1 o = parentIn ps r2 o := by
  unfold parentIn
  cases alookup ps o.hash with
  | none => rfl
  | some q => simp [h q]

theorem parentIn_congr_ps (ps1 ps2 : List (Nat × Nat)) (roots : List Nat)
    (o : BlockOverlay) (h : alookup ps1 o.hash = alookup ps2 o.hash) :
    parentIn ps1 roots o = parentIn ps2 roots o := by
  unfold parentIn
  rw [h]

theorem parentIn_append (ps : List (Nat × Nat)) (r1 r2 : List Nat) (o : BlockOverlay) :
    parentIn ps (r1 ++ r2) o = (parentIn ps r1 o || parentIn ps r2 o) := by
  unfold parentIn
  cases alookup ps o.hash with
  | none => rfl
  | some q => simp [List.mem_append]

theorem parentIn_nil (ps : List (Nat × Nat)) (o : BlockOverlay) :
    parentIn ps [] o = false := by
  unfold parentIn
  cases alookup ps o.hash with
  | none => rfl
  | some q => simp

theorem pruneSpec_nil_roots (ps : List (Nat × Nat)) (L : List (List BlockOverlay)) :
    pruneSpec ps [] L = (L, []) := by
  induction L with
  | nil => rfl
  | cons lvl rest ih =>
    simp only [pruneSpec]
    have h1 : lvl.filter (fun o => parentIn ps [] o) = [] := by
      rw [List.filter_eq_nil_iff]
      intro o _
      simp [parentIn_nil]
    have h2 : lvl.filter (fun o => !(parentIn ps [] o)) = lvl := by
      rw [List.filter_eq_self]
      intro o _
      simp [parentIn_nil]
    rw [h1, h2]
    simp [ih]

theorem pruneSpec_congr_roots (ps : List (Nat × Nat)) (r1 r2 : List Nat)
    (L : List (List BlockOverlay)) (h : ∀ q, q ∈ r1 ↔ q ∈ r2) :
    pruneSpec ps r1 L = pruneSpec ps r2 L := by
  induction L generalizing r1 r2 with
  | nil => rfl
  | cons lvl rest ih =>
    simp only [pruneSpec]
    have hd : lvl.filter (fun o => parentIn ps r1 o) =
        lvl.filter (fun o => parentIn ps r2 o) :=
      List.filter_congr (fun o _ => by rw [parentIn_congr_roots ps r1 r2 o h])
    have hk : lvl.filter (fun o => !(parentIn ps r1 o)) =
        lvl.filter (fun o => !(parentIn ps r2 o)) :=
      List.filter_congr (fun o _ => by rw [parentIn_congr_roots ps r1 r2 o h])
    rw [hd, hk, ih _ _ (fun q => Iff.rfl)]

theorem pruneSpec_congr_ps (ps1 ps2 : List (Nat × Nat)) (roots : List Nat)
    (L : List (List BlockOverlay))
    (h : ∀ x ∈ hashesOf L, alookup ps1 x = alookup ps2 x) :
    pruneSpec ps1 roots L = pruneSpec ps2 roots L := by
  induction L generalizing roots with
  | nil => rfl
  | cons lvl rest ih =>
    have hlvl : ∀ o ∈ lvl, alookup ps1 o.hash = alookup ps2 o.hash := by
      intro o ho
      apply h o.hash
      rw [hashesOf_cons]
      exact List.mem_append_left _ (List.mem_map.mpr ⟨o, ho, rfl⟩)
    have hrest : ∀ x ∈ hashesOf rest, alookup ps1 x = alookup ps2 x := by
      intro x hx
      apply h x
      rw [hashesOf_cons]
      exact List.mem_append_right _ hx
    simp only [pruneSpec]
    have hd : lvl.filter (fun o => parentIn ps1 roots o) =
        lvl.filter (fun o => parentIn ps2 roots o) :=
      List.filter_congr (fun o ho => by
        rw [parentIn_congr_ps ps1 ps2 roots o (hlvl o ho)])
    have hk : lvl.filter (fun o => !(parentIn ps1 roots o)) =
        lvl.filter (fun o => !(parentIn ps2 roots o)) :=
      List.filter_congr (fun o ho => by
        rw [parentIn_congr_ps ps1 ps2 roots o (hlvl o ho)])
    rw [hd, hk, ih _ hrest]

theorem pruneSpec_fst_length (ps : List (Nat × Nat)) (roots : List Nat)
    (L : List (List BlockOverlay)) : (pruneSpec ps roots L).1.length = L.length := by
  induction L generalizing roots with
  | nil => rfl
  | cons lvl rest ih => simp [pruneSpec, ih]

theorem pruneSpec_disc_sub (ps : List (Nat × Nat)) (roots : List Nat)
    (L : List (List BlockOverlay)) :
    ∀ o ∈ (pruneSpec ps roots L).2, o ∈ flattenL L := by
  induction L generalizing roots with
  | nil => simp [pruneSpec]
  | cons lvl rest ih =>
    intro o ho
    simp only [pruneSpec, List.mem_append] at ho
    rcases ho with h1 | h2
    · exact (mem_flattenL _ o).mpr ⟨lvl, by simp, List.mem_of_mem_filter h1⟩
    · have := ih _ o h2
      rw [mem_flattenL] at this ⊢
      obtain ⟨l, hl, hol⟩ := this
      exact ⟨l, by simp [hl], hol⟩

theorem pruneSpec_kept_sublist (ps : List (Nat × Nat)) (roots : List Nat)
    (L : List (List BlockOverlay)) :
    List.Sublist (flattenL (pruneSpec ps roots L).1) (flattenL L) := by
  induction L generalizing roots with
  | nil => simp [pruneSpec, flattenL]
  | cons lvl rest ih =>
    simp only [pruneSpec, flattenL]
    exact List.Sublist.append (List.filter_sublist lvl) (ih _)

/-- Partition of forest membership into kept and discarded. -/
theorem pruneSpec_partition (ps : List (Nat × Nat)) (roots : List Nat)
    (L : List (List BlockOverlay)) (o : BlockOverlay) :
    o ∈ flattenL L ↔
      (o ∈ flattenL (pruneSpec ps roots L).1 ∨ o ∈ (pruneSpec ps roots L).2) := by
  induction L generalizing roots with
  | nil => simp [pruneSpec, flattenL]
  | cons lvl rest ih =>
    simp only [pruneSpec, flattenL, List.mem_append]
    rw [ih (((lvl.filter (fun o => parentIn ps roots o)).map (fun o => o.hash)))]
    constructor
    · rintro (h1 | h2 | h3)
      · by_cases hp : parentIn ps roots o
        · exact Or.inr (Or.inl (List.mem_filter.mpr ⟨h1, hp⟩))
        · exact Or.inl (Or.inl (List.mem_filter.mpr ⟨h1, by simpa using hp⟩))
      · exact Or.inl (Or.inr h2)
      · exact Or.inr (Or.inr h3)
    · rintro ((h1 | h2) | h3 | h4)
      · exact Or.inl (List.mem_of_mem_filter h1)
      · exact Or.inr (Or.inl h2)
      · exact Or.inl (List.mem_of_mem_filter h3)
      · exact Or.inr (Or.inr h4)

/-- Under hash uniqueness, a kept overlay's hash is never a discarded
overlay's hash. -/
theorem pruneSpec_kept_not_disc (ps : List (Nat × Nat)) (roots : List Nat)
    (L : List (List BlockOverlay)) (hnd : (hashesOf L).Nodup) :
    ∀ x ∈ hashesOf (pruneSpec ps roots L).1,
      ¬ x ∈ (pruneSpec ps roots L).2.map (fun o => o.hash) := by
  induction L generalizing roots with
  | nil => simp [pruneSpec, hashesOf, flattenL]
  | cons lvl rest ih =>
    intro x hx hmem
    rw [hashesOf_cons] at hnd
    simp only [pruneSpec, hashesOf, flattenL, List.map_append, List.mem_append] at hx hmem
    have hndl : (lvl.map (fun o => o.hash)).Nodup := (List.nodup_append.mp hnd).1
    have hndr : (hashesOf rest).Nodup := (List.nodup_append.mp hnd).2.1
    have hdisj : ∀ a, a ∈ lvl.map (fun o => o.hash) → ¬ a ∈ hashesOf rest :=
      fun a ha => (List.nodup_append.mp hnd).2.2 ha
    rcases hx with hx1 | hx2
    · -- x is the hash of a kept overlay of the front level
      obtain ⟨o1, ho1, rfl⟩ := List.mem_map.mp hx1
      have ho1l := List.mem_of_mem_filter ho1
      have ho1k := (List.mem_filter.mp ho1).2
      rcases hmem with hm1 | hm2
      · -- also hash of a discarded front overlay: same position contradiction
        obtain ⟨o2, ho2, he⟩ := List.mem_map.mp hm1
        have ho2l := List.mem_of_mem_filter ho2
        have ho2d := (List.mem_filter.mp ho2).2
        have : o1 = o2 := List.inj_on_of_nodup_map hndl ho1l ho2l he.symm
        rw [this] at ho1k
        rw [ho2d] at ho1k
        simp at ho1k
      · -- hash of a deeper discarded overlay: front and rest hashes disjoint
        obtain ⟨o2, ho2, he⟩ := List.mem_map.mp hm2
        have ho2r := pruneSpec_disc_sub ps _ rest o2 ho2
        exact hdisj o1.hash (List.mem_map.mpr ⟨o1, ho1l, rfl⟩)
          (by rw [← he]; exact List.mem_map.mpr ⟨o2, ho2r, rfl⟩)
    · -- x is kept in a deeper level
      obtain ⟨o1, ho1, rfl⟩ := List.mem_map.mp hx2
      have ho1r : o1 ∈ flattenL rest :=
        List.Sublist.mem ho1 (pruneSpec_kept_sublist ps _ rest)
      rcases hmem with hm1 | hm2
      · obtain ⟨o2, ho2, he⟩ := List.mem_map.mp hm1
        have ho2l := List.mem_of_mem_filter ho2
        exact hdisj o2.hash (List.mem_map.mpr ⟨o2, ho2l, rfl⟩)
          (by rw [he]; exact List.mem_map.mpr ⟨o1, ho1r, rfl⟩)
      · exact ih _ hndr o1.hash (List.mem_map.mpr ⟨o1, ho1, rfl⟩) hm2

theorem pruneSpec_compose (ps : List (Nat × Nat)) (L : List (List BlockOverlay)) :
    ∀ R1 R2,
      (pruneSpec ps R2 (pruneSpec ps R1 L).1).1 = (pruneSpec ps (R1 ++ R2) L).1 ∧
      ∀ o, o ∈ (pruneSpec ps (R1 ++ R2) L).2 ↔
        (o ∈ (pruneSpec ps R1 L).2 ∨ o ∈ (pruneSpec ps R2 (pruneSpec ps R1 L).1).2) := by
  induction L with
  | nil => intro R1 R2; simp [pruneSpec]
  | cons lvl rest ih =>
    intro R1 R2
    have hk2 : ((lvl.filter (fun o => !(parentIn ps R1 o))).filter
        (fun o => !(parentIn ps R2 o))) =
        lvl.filter (fun o => !(parentIn ps (R1 ++ R2) o)) := by
      rw [List.filter_filter]
      refine List.filter_congr (fun o _ => ?_)
      rw [parentIn_append]
      cases parentIn ps R1 o <;> cases parentIn ps R2 o <;> rfl
    have hdmem : ∀ o, o ∈ lvl.filter (fun o => parentIn ps (R1 ++ R2) o) ↔
        (o ∈ lvl.filter (fun o => parentIn ps R1 o) ∨
          o ∈ (lvl.filter (fun o => !(parentIn ps R1 o))).filter
            (fun o => parentIn ps R2 o)) := by
      intro o
      rw [List.filter_filter]
      simp only [List.mem_filter]
      rw [parentIn_append]
      cases h1 : parentIn ps R1 o <;> cases h2 : parentIn ps R2 o <;> simp
    have hroots : ∀ q,
        q ∈ ((lvl.filter (fun o => parentIn ps R1 o)).map (fun o => o.hash) ++
          ((lvl.filter (fun o => !(parentIn ps R1 o))).filter
            (fun o => parentIn ps R2 o)).map (fun o => o.hash)) ↔
        q ∈ (lvl.filter (fun o => parentIn ps (R1 ++ R2) o)).map (fun o => o.hash) := by
      intro q
      simp only [List.mem_append, List.mem_map]
      constructor
      · rintro (⟨o, ho, rfl⟩ | ⟨o, ho, rfl⟩)
        · exact ⟨o, (hdmem o).mpr (Or.inl ho), rfl⟩
        · exact ⟨o, (hdmem o).mpr (Or.inr ho), rfl⟩
      · rintro ⟨o, ho, rfl⟩
        rcases (hdmem o).mp ho with h1 | h2
        · exact Or.inl ⟨o, h1, rfl⟩
        · exact Or.inr ⟨o, h2, rfl⟩
    obtain ⟨ih1, ih2⟩ := ih ((lvl.filter (fun o => parentIn ps R1 o)).map (fun o => o.hash))
      (((lvl.filter (fun o => !(parentIn ps R1 o))).filter
        (fun o => parentIn ps R2 o)).map (fun o => o.hash))
    constructor
    · simp only [pruneSpec]
      rw [hk2, ih1, pruneSpec_congr_roots ps _ _ rest hroots]
    · intro o
      simp only [pruneSpec, List.mem_append]
      rw [← pruneSpec_congr_roots ps _ _ rest hroots]
      constructor
      · rintro (h1 | h2)
        · rcases (hdmem o).mp h1 with ha | hb
          · exact Or.inl (Or.inl ha)
          · exact Or.inr (Or.inl hb)
        · rcases (ih2 o).mp h2 with ha | hb
          · exact Or.inl (Or.inr ha)
          · exact Or.inr (Or.inr hb)
      · rintro ((h1 | h2) | h3 | h4)
        · exact Or.inl ((hdmem o).mpr (Or.inl h1))
        · exact Or.inr ((ih2 o).mpr (Or.inl h2))
        · exact Or.inl ((hdmem o).mpr (Or.inr h3))
        · exact Or.inr ((ih2 o).mpr (Or.inr h4))

theorem alookup_filter_not (ps : List (Nat × α)) (P : Nat → Prop) [DecidablePred P]
    (k : Nat) :
    alookup (ps.filter (fun e => !(decide (P e.1)))) k =
      if P k then none else alookup ps k := by
  rw [alookup_filter_key ps (fun x => !(decide (P x))) k]
  by_cases h : P k <;> simp [h]

theorem filter_not_filter_not (ps : List (Nat × α)) (P Q : Nat → Prop)
    [DecidablePred P] [DecidablePred Q] :
    ((ps.filter (fun e => !(decide (P e.1)))).filter (fun e => !(decide (Q e.1)))) =
      ps.filter (fun e => !(decide (P e.1 ∨ Q e.1))) := by
  rw [List.filter_filter]
  refine List.filter_congr (fun e _ => ?_)
  by_cases hp : P e.1 <;> by_cases hq : Q e.1 <;> simp [hp, hq]

theorem filter_not_congr (ps : List (Nat × α)) (P Q : Nat → Prop)
    [DecidablePred P] [DecidablePred Q] (h : ∀ k, P k ↔ Q k) :
    ps.filter (fun e => !(decide (P e.1))) = ps.filter (fun e => !(decide (Q e.1))) := by
  refine List.filter_congr (fun e _ => ?_)
  by_cases hp : P e.1
  · simp [hp, (h e.1).mp hp]
  · have : ¬ Q e.1 := fun hq => hp ((h e.1).mpr hq)
    simp [hp, this]

theorem filter_not_false (ps : List (Nat × α)) (P : Nat → Prop) [DecidablePred P]
    (h : ∀ k, ¬ P k) : ps.filter (fun e => !(decide (P e.1))) = ps := by
  rw [List.filter_eq_self]
  intro e _
  simp [h e.1]

theorem mapRemove_eq_filter (ps : List (Nat × α)) (k : Nat) :
    mapRemove ps k = ps.filter (fun e => !(decide (e.1 = k))) := by
  unfold mapRemove
  refine List.filter_congr (fun e _ => ?_)
  by_cases he : e.1 = k <;> simp [he]

theorem hashes_disc_sub (ps : List (Nat × Nat)) (roots : List Nat)
    (L : List (List BlockOverlay)) :
    ∀ x ∈ (pruneSpec ps roots L).2.map (fun o => o.hash), x ∈ hashesOf L := by
  intro x hx
  obtain ⟨o, ho, rfl⟩ := List.mem_map.mp hx
  exact List.mem_map.mpr ⟨o, pruneSpec_disc_sub ps roots L o ho, rfl⟩

theorem hashes_kept_sub (ps : List (Nat × Nat)) (roots : List Nat)
    (L : List (List BlockOverlay)) :
    ∀ x ∈ hashesOf (pruneSpec ps roots L).1, x ∈ hashesOf L := by
  intro x hx
  obtain ⟨o, ho, rfl⟩ := List.mem_map.mp hx
  exact List.mem_map.mpr ⟨o, List.Sublist.mem ho (pruneSpec_kept_sublist ps roots L), rfl⟩

theorem hashesOf_sublist (ps : List (Nat × Nat)) (roots : List Nat)
    (L : List (List BlockOverlay)) :
    List.Sublist (hashesOf (pruneSpec ps roots L).1) (hashesOf L) :=
  List.Sublist.map _ (pruneSpec_kept_sublist ps roots L)

/-- The declarative contract of one `discard` call: with fuel at least the
number of levels and pairwise-distinct hashes, the depth-first mutation is
exactly the spec's worklist prune rooted at `h`. -/
def DiscardSpec (f : Nat) : Prop :=
  ∀ L ps js h, L.length ≤ f → (hashesOf L).Nodup →
    (discardF f L ps js h).1 = (pruneSpec ps [h] L).1 ∧
    (discardF f L ps js h).2.1 =
      ps.filter (fun e =>
        !(decide (e.1 ∈ (pruneSpec ps [h] L).2.map (fun o => o.hash)))) ∧
    ∃ Δ, (discardF f L ps js h).2.2 = js ++ Δ ∧
      ∀ x, x ∈ Δ ↔ ∃ o ∈ (pruneSpec ps [h] L).2, x = o.journal_key

/-- The declarative contract of the `retain` walk over one level with roots
taken from the overlays whose parent is `h`. -/
def RetainSpec (f : Nat) : Prop :=
  ∀ os subs ps js h, subs.length ≤ f →
    ((os.map (fun o => o.hash)) ++ hashesOf subs).Nodup →
    (retainAux (discardF f) os subs ps js h).1 =
      os.filter (fun o => !(parentIn ps [h] o)) ∧
    (retainAux (discardF f) os subs ps js h).2.1 =
      (pruneSpec ps ((os.filter (fun o => parentIn ps [h] o)).map (fun o => o.hash))
        subs).1 ∧
    (retainAux (discardF f) os subs ps js h).2.2.1 =
      ps.filter (fun e => !(decide
        (e.1 ∈ (os.filter (fun o => parentIn ps [h] o)).map (fun o => o.hash) ∨
          e.1 ∈ ((pruneSpec ps
            ((os.filter (fun o => parentIn ps [h] o)).map (fun o => o.hash))
            subs).2.map (fun o => o.hash))))) ∧
    ∃ Δ, (retainAux (discardF f) os subs ps js h).2.2.2 = js ++ Δ ∧
      ∀ x, x ∈ Δ ↔
        ((∃ o ∈ os.filter (fun o => parentIn ps [h] o), x = o.journal_key) ∨
          ∃ o ∈ (pruneSpec ps
            ((os.filter (fun o => parentIn ps [h] o)).map (fun o => o.hash)) subs).2,
            x = o.journal_key)

theorem discard_zero : DiscardSpec 0 := by
  intro L ps js h hlen hnd
  have hL : L = [] := List.length_eq_zero.mp (Nat.le_zero.mp hlen)
  subst hL
  refine ⟨rfl, ?_, [], by simp [discardF], by simp [pruneSpec]⟩
  simp [pruneSpec, discardF]

theorem retain_of_discard (f : Nat) (hD : DiscardSpec f) : RetainSpec f := by
  intro os
  induction os with
  | nil =>
    intro subs ps js h hlen hnd
    simp only [retainAux]
    refine ⟨by simp, ?_, ?_, [], by simp, by simp [pruneSpec_nil_roots]⟩
    · rw [List.filter_nil, List.map_nil, pruneSpec_nil_roots]
    · rw [List.filter_nil, List.map_nil, pruneSpec_nil_roots]
      simp
  | cons o os ih =>
    intro subs ps js h hlen hnd
    have hndflat : (o.hash :: (os.map (fun x => x.hash) ++ hashesOf subs)).Nodup := by
      simpa using hnd
    have hnotin : ¬ o.hash ∈ os.map (fun x => x.hash) ++ hashesOf subs :=
      (List.nodup_cons.mp hndflat).1
    have hnd2 : (os.map (fun x => x.hash) ++ hashesOf subs).Nodup :=
      (List.nodup_cons.mp hndflat).2
    have hnotin_os : ¬ o.hash ∈ os.map (fun x => x.hash) := fun hx =>
      hnotin (List.mem_append_left _ hx)
    have hnotin_subs : ¬ o.hash ∈ hashesOf subs := fun hx =>
      hnotin (List.mem_append_right _ hx)
    have hnd_subs : (hashesOf subs).Nodup := (List.nodup_append.mp hnd2).2.1
    have hdisj : ∀ a ∈ os.map (fun x => x.hash), ¬ a ∈ hashesOf subs := by
      intro a ha hsub
      exact (List.nodup_append.mp hnd2).2.2 ha hsub
    cases hlook : alookup ps o.hash with
    | none =>
      have hpi : parentIn ps [h] o = false := by
        unfold parentIn; rw [hlook]
      obtain ⟨ih1, ih2, ih3, Δ, hΔ, hΔm⟩ := ih subs ps js h hlen hnd2
      simp only [retainAux, hlook]
      rw [List.filter_cons_of_pos (by simp [hpi]), List.filter_cons_of_neg (by simp [hpi])]
      exact ⟨by rw [ih1], ih2, ih3, Δ, hΔ, hΔm⟩
    | some q =>
      by_cases hqh : q = h
      · -- discardTop branch
        subst hqh
        have hpi : parentIn ps [q] o = true := by
          unfold parentIn; rw [hlook]; simp
        obtain ⟨d1, d2, Δ1, hΔ1, hΔ1m⟩ := hD subs (mapRemove ps o.hash)
          (js ++ [o.journal_key]) o.hash hlen hnd_subs
        have hps1 : pruneSpec (mapRemove ps o.hash) [o.hash] subs =
            pruneSpec ps [o.hash] subs := by
          apply pruneSpec_congr_ps
          intro x hx
          rw [alookup_mapRemove]
          have hxne : ¬ x = o.hash := by
            intro he
            rw [he] at hx
            exact hnotin_subs hx
          rw [if_neg hxne]
        rw [hps1] at d1 d2 hΔ1m
        have hps2 : (discardF f subs (mapRemove ps o.hash)
            (js ++ [o.journal_key]) o.hash).2.1 =
            ps.filter (fun e => !(decide (e.1 = o.hash ∨
              e.1 ∈ (pruneSpec ps [o.hash] subs).2.map (fun x => x.hash)))) := by
          rw [d2, mapRemove_eq_filter,
            filter_not_filter_not ps (fun x => x = o.hash)
              (fun x => x ∈ (pruneSpec ps [o.hash] subs).2.map (fun y => y.hash))]
        have hlook2 : ∀ x, ¬(x = o.hash ∨
            x ∈ (pruneSpec ps [o.hash] subs).2.map (fun y => y.hash)) →
            alookup (discardF f subs (mapRemove ps o.hash)
              (js ++ [o.journal_key]) o.hash).2.1 x = alookup ps x := by
          intro x hx
          rw [hps2, alookup_filter_not ps (fun k => k = o.hash ∨
            k ∈ (pruneSpec ps [o.hash] subs).2.map (fun y => y.hash)) x, if_neg hx]
        have hlenK : (pruneSpec ps [o.hash] subs).1.length ≤ f := by
          rw [pruneSpec_fst_length]; exact hlen
        have hndK : (os.map (fun x => x.hash) ++
            hashesOf (pruneSpec ps [o.hash] subs).1).Nodup :=
          List.Nodup.sublist
            (List.Sublist.append_left (hashesOf_sublist ps [o.hash] subs) _) hnd2
        obtain ⟨ih1, ih2, ih3, Δ2, hΔ2, hΔ2m⟩ := ih
          (pruneSpec ps [o.hash] subs).1
          ((discardF f subs (mapRemove ps o.hash) (js ++ [o.journal_key]) o.hash).2.1)
          ((discardF f subs (mapRemove ps o.hash) (js ++ [o.journal_key]) o.hash).2.2)
          q hlenK hndK
        -- convert the parent tests of the tail back to ps
        have hosgood : ∀ x ∈ os, ¬(x.hash = o.hash ∨
            x.hash ∈ (pruneSpec ps [o.hash] subs).2.map (fun y => y.hash)) := by
          intro x hx
          rintro (he | hin)
          · exact hnotin_os (he ▸ List.mem_map.mpr ⟨x, hx, rfl⟩)
          · exact hdisj x.hash (List.mem_map.mpr ⟨x, hx, rfl⟩)
              (hashes_disc_sub ps [o.hash] subs x.hash hin)
        have hF : os.filter (fun x => parentIn
            (discardF f subs (mapRemove ps o.hash) (js ++ [o.journal_key]) o.hash).2.1
            [q] x) = os.filter (fun x => parentIn ps [q] x) :=
          List.filter_congr (fun x hx =>
            parentIn_congr_ps _ _ _ x (hlook2 x.hash (hosgood x hx)))
        have hkeep : os.filter (fun x => !(parentIn
            (discardF f subs (mapRemove ps o.hash) (js ++ [o.journal_key]) o.hash).2.1
            [q] x)) = os.filter (fun x => !(parentIn ps [q] x)) :=
          List.filter_congr (fun x hx => by
            rw [parentIn_congr_ps _ ps _ x (hlook2 x.hash (hosgood x hx))])
        have hKgood : ∀ x ∈ hashesOf (pruneSpec ps [o.hash] subs).1,
            ¬(x = o.hash ∨
              x ∈ (pruneSpec ps [o.hash] subs).2.map (fun y => y.hash)) := by
          intro x hx
          rintro (he | hin)
          · exact hnotin_subs (he ▸ hashes_kept_sub ps [o.hash] subs x hx)
          · exact pruneSpec_kept_not_disc ps [o.hash] subs hnd_subs x hx hin
        have hps2prune : pruneSpec
            (discardF f subs (mapRemove ps o.hash) (js ++ [o.journal_key]) o.hash).2.1
            ((os.filter (fun x => parentIn ps [q] x)).map (fun x => x.hash))
            (pruneSpec ps [o.hash] subs).1 =
            pruneSpec ps
              ((os.filter (fun x => parentIn ps [q] x)).map (fun x => x.hash))
              (pruneSpec ps [o.hash] subs).1 := by
          apply pruneSpec_congr_ps
          intro x hx
          exact hlook2 x (hKgood x hx)
        obtain ⟨hcomp1, hcomp2⟩ := pruneSpec_compose ps subs [o.hash]
          ((os.filter (fun x => parentIn ps [q] x)).map (fun x => x.hash))
        rw [List.singleton_append] at hcomp1 hcomp2
        have hroots : ((o :: os).filter (fun x => parentIn ps [q] x)).map
            (fun x => x.hash) =
            o.hash :: (os.filter (fun x => parentIn ps [q] x)).map (fun x => x.hash) := by
          rw [List.filter_cons_of_pos hpi, List.map_cons]
        rw [hF] at ih2 ih3 hΔ2m
        rw [hps2prune] at ih2 ih3 hΔ2m
        have hDtoth : ∀ k, k ∈ (pruneSpec ps
            (o.hash :: (os.filter (fun x => parentIn ps [q] x)).map (fun x => x.hash))
            subs).2.map (fun y => y.hash) ↔
            (k ∈ (pruneSpec ps [o.hash] subs).2.map (fun y => y.hash) ∨
              k ∈ (pruneSpec ps
                ((os.filter (fun x => parentIn ps [q] x)).map (fun x => x.hash))
                (pruneSpec ps [o.hash] subs).1).2.map (fun y => y.hash)) := by
          intro k
          simp only [List.mem_map]
          constructor
          · rintro ⟨o1, ho1, rfl⟩
            rcases (hcomp2 o1).mp ho1 with ha | hb
            · exact Or.inl ⟨o1, ha, rfl⟩
            · exact Or.inr ⟨o1, hb, rfl⟩
          · rintro (⟨o1, ho1, rfl⟩ | ⟨o1, ho1, rfl⟩)
            · exact ⟨o1, (hcomp2 o1).mpr (Or.inl ho1), rfl⟩
            · exact ⟨o1, (hcomp2 o1).mpr (Or.inr ho1), rfl⟩
        have hDtotJ : ∀ x : List Nat, (∃ o1 ∈ (pruneSpec ps
            (o.hash :: (os.filter (fun y => parentIn ps [q] y)).map (fun y => y.hash))
            subs).2, x = o1.journal_key) ↔
            ((∃ o1 ∈ (pruneSpec ps [o.hash] subs).2, x = o1.journal_key) ∨
              ∃ o1 ∈ (pruneSpec ps
                ((os.filter (fun y => parentIn ps [q] y)).map (fun y => y.hash))
                (pruneSpec ps [o.hash] subs).1).2, x = o1.journal_key) := by
          intro x
          constructor
          · rintro ⟨o1, ho1, rfl⟩
            rcases (hcomp2 o1).mp ho1 with ha | hb
            · exact Or.inl ⟨o1, ha, rfl⟩
            · exact Or.inr ⟨o1, hb, rfl⟩
          · rintro (⟨o1, ho1, rfl⟩ | ⟨o1, ho1, rfl⟩)
            · exact ⟨o1, (hcomp2 o1).mpr (Or.inl ho1), rfl⟩
            · exact ⟨o1, (hcomp2 o1).mpr (Or.inr ho1), rfl⟩
        simp only [retainAux, hlook, if_pos rfl, eq_self_iff_true, if_true, ite_true]
        rw [d1]
        refine ⟨?_, ?_, ?_, ?_⟩
        · rw [List.filter_cons_of_neg (by simp [hpi])]
          exact ih1.trans hkeep
        · rw [hroots, ← hcomp1]
          exact ih2
        · rw [ih3, hps2,
            filter_not_filter_not ps
              (fun k => k = o.hash ∨
                k ∈ (pruneSpec ps [o.hash] subs).2.map (fun y => y.hash))
              (fun k =>
                k ∈ (os.filter (fun x => parentIn ps [q] x)).map (fun x => x.hash) ∨
                k ∈ (pruneSpec ps
                  ((os.filter (fun x => parentIn ps [q] x)).map (fun x => x.hash))
                  (pruneSpec ps [o.hash] subs).1).2.map (fun y => y.hash)),
            hroots]
          refine filter_not_congr ps
            (fun k => (k = o.hash ∨
                k ∈ (pruneSpec ps [o.hash] subs).2.map (fun y => y.hash)) ∨
              (k ∈ (os.filter (fun x => parentIn ps [q] x)).map (fun x => x.hash) ∨
                k ∈ (pruneSpec ps
                  ((os.filter (fun x => parentIn ps [q] x)).map (fun x => x.hash))
                  (pruneSpec ps [o.hash] subs).1).2.map (fun y => y.hash)))
            (fun k => k ∈ o.hash ::
                (os.filter (fun x => parentIn ps [q] x)).map (fun x => x.hash) ∨
              k ∈ (pruneSpec ps
                (o.hash :: (os.filter (fun x => parentIn ps [q] x)).map (fun x => x.hash))
                subs).2.map (fun o => o.hash))
            (fun k => ?_)
          simp only [hDtoth k, List.mem_cons]
          tauto
        · refine ⟨[o.journal_key] ++ Δ1 ++ Δ2, ?_, ?_⟩
          · rw [hΔ2, hΔ1]
            simp
          · intro x
            rw [hroots]
            simp only [List.mem_append, List.mem_singleton, hΔ1m x, hΔ2m x,
              List.filter_cons_of_pos hpi, hDtotJ x]
            simp only [List.mem_cons]
            constructor
            · rintro ((rfl | hd1) | hfr | hd2)
              · exact Or.inl ⟨o, Or.inl rfl, rfl⟩
              · exact Or.inr (Or.inl hd1)
              · obtain ⟨o1, ho1, rfl⟩ := hfr
                exact Or.inl ⟨o1, Or.inr ho1, rfl⟩
              · exact Or.inr (Or.inr hd2)
            · rintro (⟨o1, ho1 | ho1, rfl⟩ | hd1 | hd2)
              · rw [ho1]
                exact Or.inl (Or.inl rfl)
              · exact Or.inr (Or.inl ⟨o1, ho1, rfl⟩)
              · exact Or.inl (Or.inr hd1)
              · exact Or.inr (Or.inr hd2)
      · -- keep branch (parent differs)
        have hpi : parentIn ps [h] o = false := by
          unfold parentIn; rw [hlook]; simp [hqh]
        obtain ⟨ih1, ih2, ih3, Δ, hΔ, hΔm⟩ := ih subs ps js h hlen hnd2
        simp only [retainAux, hlook, if_neg hqh]
        rw [List.filter_cons_of_pos (by simp [hpi]),
          List.filter_cons_of_neg (by simp [hpi])]
        exact ⟨by rw [ih1], ih2, ih3, Δ, hΔ, hΔm⟩

theorem discard_succ (f : Nat) (hR : RetainSpec f) : DiscardSpec (f + 1) := by
  intro L ps js h hlen hnd
  cases L with
  | nil =>
    refine ⟨by simp [discardF, pruneSpec], by simp [discardF, pruneSpec], [],
      by simp [discardF], by simp [pruneSpec]⟩
  | cons lvl subs =>
    have hlen1 : subs.length ≤ f := by
      simp only [List.length_cons] at hlen
      omega
    have hnd1 : (lvl.map (fun o => o.hash) ++ hashesOf subs).Nodup := by
      rw [hashesOf_cons] at hnd
      exact hnd
    obtain ⟨r1, r2, r3, Δ, hΔ, hΔm⟩ := hR lvl subs ps js h hlen1 hnd1
    simp only [discardF]
    refine ⟨?_, ?_, Δ, hΔ, ?_⟩
    · simp only [pruneSpec]
      rw [r1, r2]
    · simp only [pruneSpec]
      rw [r3]
      refine filter_not_congr ps
        (fun k => k ∈ (lvl.filter (fun o => parentIn ps [h] o)).map (fun o => o.hash) ∨
          k ∈ (pruneSpec ps
            ((lvl.filter (fun o => parentIn ps [h] o)).map (fun o => o.hash))
            subs).2.map (fun o => o.hash))
        (fun k => k ∈ ((lvl.filter (fun o => parentIn ps [h] o)) ++
          (pruneSpec ps
            ((lvl.filter (fun o => parentIn ps [h] o)).map (fun o => o.hash))
            subs).2).map (fun o => o.hash))
        (fun k => ?_)
      simp only [List.map_append, List.mem_append]
    · intro x
      rw [hΔm x]
      simp only [pruneSpec, List.mem_append]
      constructor
      · rintro (⟨o, ho, rfl⟩ | ⟨o, ho, rfl⟩)
        · exact ⟨o, Or.inl ho, rfl⟩
        · exact ⟨o, Or.inr ho, rfl⟩
      · rintro ⟨o, ho | ho, rfl⟩
        · exact Or.inl ⟨o, ho, rfl⟩
        · exact Or.inr ⟨o, ho, rfl⟩

theorem discard_spec : ∀ f, DiscardSpec f := by
  intro f
  induction f with
  | zero => exact discard_zero
  | succ f ih => exact discard_succ f (retain_of_discard f ih)

/-- The hashes of the non-winner overlays of the front level, walking from
position `i` with winner position `index`. -/
def loserHashes (index : Nat) : Nat → List BlockOverlay → List Nat
  | _, [] => []
  | i, o :: os =>
    if i = index then loserHashes index (i+1) os
    else o.hash :: loserHashes index (i+1) os

/-- The overlay sitting at position `index`, walking from position `i`. -/
def winnerAt (index : Nat) : Nat → List BlockOverlay → Option BlockOverlay
  | _, [] => none
  | i, o :: os => if i = index then some o else winnerAt index (i+1) os

theorem winnerAt_none_of_lt (index : Nat) :
    ∀ os i, index < i → winnerAt index i os = none := by
  intro os
  induction os with
  | nil => intro i _; rfl
  | cons o os ih =>
    intro i hlt
    simp only [winnerAt]
    rw [if_neg (by omega)]
    exact ih (i+1) (by omega)

theorem loserHashes_of_lt (index : Nat) :
    ∀ os i, index < i → loserHashes index i os = os.map (fun o => o.hash) := by
  intro os
  induction os with
  | nil => intro i _; rfl
  | cons o os ih =>
    intro i hlt
    simp only [loserHashes]
    rw [if_neg (by omega)]
    rw [ih (i+1) (by omega), List.map_cons]

theorem findIdx?_ge (p : BlockOverlay → Bool) :
    ∀ os i index, List.findIdx? p os i = some index → i ≤ index := by
  intro os
  induction os with
  | nil => intro i index h; simp [List.findIdx?] at h
  | cons o os ih =>
    intro i index h
    rw [List.findIdx?_cons] at h
    by_cases hp : p o
    · rw [if_pos hp] at h
      simp only [Option.some.injEq] at h
      omega
    · rw [if_neg hp] at h
      have := ih (i+1) index h
      omega

theorem findIdx?_winnerAt (h : Nat) :
    ∀ os i index, List.findIdx? (fun o => o.hash == h) os i = some index →
      ∃ w, winnerAt index i os = some w ∧ w.hash = h ∧ w ∈ os := by
  intro os
  induction os with
  | nil => intro i index hf; simp [List.findIdx?] at hf
  | cons o os ih =>
    intro i index hf
    rw [List.findIdx?_cons] at hf
    by_cases hp : o.hash == h
    · rw [if_pos hp] at hf
      simp only [Option.some.injEq] at hf
      refine ⟨o, ?_, by simpa using hp, by simp⟩
      simp only [winnerAt]
      rw [if_pos hf]
    · rw [if_neg hp] at hf
      have hge := findIdx?_ge (fun o => o.hash == h) os (i+1) index hf
      obtain ⟨w, hw, hwh, hwm⟩ := ih (i+1) index hf
      refine ⟨w, ?_, hwh, by simp [hwm]⟩
      simp only [winnerAt]
      rw [if_neg (by omega)]
      exact hw

theorem findIdx?_loserHashes (h : Nat) :
    ∀ os i index, List.findIdx? (fun o => o.hash == h) os i = some index →
      (os.map (fun o => o.hash)).Nodup →
      loserHashes index i os =
        (os.filter (fun o => !(o.hash == h))).map (fun o => o.hash) := by
  intro os
  induction os with
  | nil => intro i index hf _; rfl
  | cons o os ih =>
    intro i index hf hnd
    rw [List.findIdx?_cons] at hf
    simp only [List.map_cons, List.nodup_cons] at hnd
    by_cases hp : o.hash == h
    · rw [if_pos hp] at hf
      simp only [Option.some.injEq] at hf
      have hoh : o.hash = h := by simpa using hp
      simp only [loserHashes]
      rw [if_pos hf, List.filter_cons_of_neg (by simp [hp])]
      rw [loserHashes_of_lt index os (i+1) (by omega)]
      have hfil : os.filter (fun o => !(o.hash == h)) = os := by
        rw [List.filter_eq_self]
        intro x hx
        have hxh : ¬ x.hash = h := by
          intro he
          apply hnd.1
          rw [hoh, ← he]
          exact List.mem_map.mpr ⟨x, hx, rfl⟩
        simp [hxh]
      rw [hfil]
    · rw [if_neg hp] at hf
      have hge := findIdx?_ge (fun o => o.hash == h) os (i+1) index hf
      simp only [loserHashes]
      rw [if_neg (by omega), List.filter_cons_of_pos (by simpa using hp), List.map_cons,
        ih (i+1) index hf hnd.2]

theorem finLoop_spec (index : Nat) :
    ∀ os i lvls ps js data,
      ((os.map (fun o => o.hash)) ++ hashesOf lvls).Nodup →
      (finLoop index os i lvls ps js data).1 =
        (pruneSpec ps (loserHashes index i os) lvls).1 ∧
      (finLoop index os i lvls ps js data).2.1 =
        ps.filter (fun e => !(decide (e.1 ∈ os.map (fun o => o.hash) ∨
          e.1 ∈ (pruneSpec ps (loserHashes index i os) lvls).2.map (fun o => o.hash)))) ∧
      (∃ Δ, (finLoop index os i lvls ps js data).2.2.1 = js ++ Δ ∧
        ∀ x, x ∈ Δ ↔ ((∃ o ∈ os, x = o.journal_key) ∨
          ∃ o ∈ (pruneSpec ps (loserHashes index i os) lvls).2, x = o.journal_key)) ∧
      (finLoop index os i lvls ps js data).2.2.2 =
        (match winnerAt index i os with
          | some w => ({ inserted := w.values, deleted := w.deleted } : ChangeSet Nat)
          | none => data) := by
  intro os
  induction os with
  | nil =>
    intro i lvls ps js data hnd
    refine ⟨by simp [finLoop, loserHashes, pruneSpec_nil_roots],
      by simp [finLoop, loserHashes, pruneSpec_nil_roots],
      ⟨[], by simp [finLoop], by simp [loserHashes, pruneSpec_nil_roots]⟩,
      by simp [finLoop, winnerAt]⟩
  | cons o os ih =>
    intro i lvls ps js data hnd
    have hndflat : (o.hash :: (os.map (fun x => x.hash) ++ hashesOf lvls)).Nodup := by
      simpa using hnd
    have hnotin : ¬ o.hash ∈ os.map (fun x => x.hash) ++ hashesOf lvls :=
      (List.nodup_cons.mp hndflat).1
    have hnd2 : (os.map (fun x => x.hash) ++ hashesOf lvls).Nodup :=
      (List.nodup_cons.mp hndflat).2
    have hnotin_os : ¬ o.hash ∈ os.map (fun x => x.hash) := fun hx =>
      hnotin (List.mem_append_left _ hx)
    have hnotin_lvls : ¬ o.hash ∈ hashesOf lvls := fun hx =>
      hnotin (List.mem_append_right _ hx)
    have hnd_lvls : (hashesOf lvls).Nodup := (List.nodup_append.mp hnd2).2.1
    have hdisj : ∀ a ∈ os.map (fun x => x.hash), ¬ a ∈ hashesOf lvls := by
      intro a ha hsub
      exact (List.nodup_append.mp hnd2).2.2 ha hsub
    have hpr : ∀ R, pruneSpec (mapRemove ps o.hash) R lvls = pruneSpec ps R lvls := by
      intro R
      apply pruneSpec_congr_ps
      intro x hx
      rw [alookup_mapRemove]
      have hxne : ¬ x = o.hash := by
        intro he; rw [he] at hx; exact hnotin_lvls hx
      rw [if_neg hxne]
    simp only [finLoop]
    by_cases hi : i = index
    · -- winner position
      rw [if_pos hi]
      obtain ⟨ih1, ih2, ⟨Δ, hΔ, hΔm⟩, ih4⟩ := ih (i+1) lvls (mapRemove ps o.hash)
        (js ++ [o.journal_key]) ⟨o.values, o.deleted⟩ hnd2
      rw [hpr] at ih1 ih2 hΔm
      refine ⟨?_, ?_, ⟨o.journal_key :: Δ, ?_, ?_⟩, ?_⟩
      · rw [ih1]
        simp only [loserHashes, if_pos hi]
      · rw [ih2, mapRemove_eq_filter,
          filter_not_filter_not ps (fun k => k = o.hash)
            (fun k => k ∈ os.map (fun x => x.hash) ∨
              k ∈ (pruneSpec ps (loserHashes index (i+1) os) lvls).2.map
                (fun x => x.hash))]
        simp only [loserHashes, if_pos hi]
        refine filter_not_congr ps
          (fun k => k = o.hash ∨ k ∈ os.map (fun x => x.hash) ∨
            k ∈ (pruneSpec ps (loserHashes index (i+1) os) lvls).2.map
              (fun x => x.hash))
          (fun k => k ∈ (o :: os).map (fun x => x.hash) ∨
            k ∈ (pruneSpec ps (loserHashes index (i+1) os) lvls).2.map
              (fun x => x.hash))
          (fun k => ?_)
        simp only [List.map_cons, List.mem_cons]
        tauto
      · rw [hΔ]
        simp
      · intro x
        simp only [hΔm x, loserHashes, if_pos hi, List.mem_cons]
        constructor
        · rintro (rfl | hos | hd)
          · exact Or.inl ⟨o, Or.inl rfl, rfl⟩
          · obtain ⟨o1, ho1, rfl⟩ := hos
            exact Or.inl ⟨o1, Or.inr ho1, rfl⟩
          · exact Or.inr hd
        · rintro (⟨o1, ho1 | ho1, rfl⟩ | hd)
          · rw [ho1]
            exact Or.inl rfl
          · exact Or.inr (Or.inl ⟨o1, ho1, rfl⟩)
          · exact Or.inr (Or.inr hd)
      · rw [ih4, winnerAt_none_of_lt index os (i+1) (by omega)]
        simp only [winnerAt, if_pos hi]
    · -- loser position
      rw [if_neg hi]
      unfold discardTop
      obtain ⟨d1, d2, Δ1, hΔ1, hΔ1m⟩ := discard_spec lvls.length lvls
        (mapRemove ps o.hash) js o.hash (Nat.le_refl _) hnd_lvls
      rw [hpr] at d1 d2 hΔ1m
      have hps2 : (discardF lvls.length lvls (mapRemove ps o.hash) js o.hash).2.1 =
          ps.filter (fun e => !(decide (e.1 = o.hash ∨
            e.1 ∈ (pruneSpec ps [o.hash] lvls).2.map (fun x => x.hash)))) := by
        rw [d2, mapRemove_eq_filter,
          filter_not_filter_not ps (fun x => x = o.hash)
            (fun x => x ∈ (pruneSpec ps [o.hash] lvls).2.map (fun y => y.hash))]
      have hlook2 : ∀ x, ¬(x = o.hash ∨
          x ∈ (pruneSpec ps [o.hash] lvls).2.map (fun y => y.hash)) →
          alookup (discardF lvls.length lvls (mapRemove ps o.hash) js o.hash).2.1 x =
            alookup ps x := by
        intro x hx
        rw [hps2, alookup_filter_not ps (fun k => k = o.hash ∨
          k ∈ (pruneSpec ps [o.hash] lvls).2.map (fun y => y.hash)) x, if_neg hx]
      have hKgood : ∀ x ∈ hashesOf (pruneSpec ps [o.hash] lvls).1,
          ¬(x = o.hash ∨
            x ∈ (pruneSpec ps [o.hash] lvls).2.map (fun y => y.hash)) := by
        intro x hx
        rintro (he | hin)
        · exact hnotin_lvls (he ▸ hashes_kept_sub ps [o.hash] lvls x hx)
        · exact pruneSpec_kept_not_disc ps [o.hash] lvls hnd_lvls x hx hin
      have hndK : (os.map (fun x => x.hash) ++
          hashesOf (pruneSpec ps [o.hash] lvls).1).Nodup :=
        List.Nodup.sublist
          (List.Sublist.append_left (hashesOf_sublist ps [o.hash] lvls) _) hnd2
      obtain ⟨ih1, ih2, ⟨Δ2, hΔ2, hΔ2m⟩, ih4⟩ := ih (i+1)
        (pruneSpec ps [o.hash] lvls).1
        ((discardF lvls.length lvls (mapRemove ps o.hash) js o.hash).2.1)
        ((discardF lvls.length lvls (mapRemove ps o.hash) js o.hash).2.2 ++
          [o.journal_key])
        data hndK
      have hps2prune : pruneSpec
          (discardF lvls.length lvls (mapRemove ps o.hash) js o.hash).2.1
          (loserHashes index (i+1) os) (pruneSpec ps [o.hash] lvls).1 =
          pruneSpec ps (loserHashes index (i+1) os)
            (pruneSpec ps [o.hash] lvls).1 := by
        apply pruneSpec_congr_ps
        intro x hx
        exact hlook2 x (hKgood x hx)
      rw [hps2prune] at ih1 ih2 hΔ2m
      obtain ⟨hcomp1, hcomp2⟩ := pruneSpec_compose ps lvls [o.hash]
        (loserHashes index (i+1) os)
      rw [List.singleton_append] at hcomp1 hcomp2
      have hDtotJ : ∀ x : List Nat, (∃ o1 ∈ (pruneSpec ps
          (o.hash :: loserHashes index (i+1) os) lvls).2, x = o1.journal_key) ↔
          ((∃ o1 ∈ (pruneSpec ps [o.hash] lvls).2, x = o1.journal_key) ∨
            ∃ o1 ∈ (pruneSpec ps (loserHashes index (i+1) os)
              (pruneSpec ps [o.hash] lvls).1).2, x = o1.journal_key) := by
        intro x
        constructor
        · rintro ⟨o1, ho1, rfl⟩
          rcases (hcomp2 o1).mp ho1 with ha | hb
          · exact Or.inl ⟨o1, ha, rfl⟩
          · exact Or.inr ⟨o1, hb, rfl⟩
        · rintro (⟨o1, ho1, rfl⟩ | ⟨o1, ho1, rfl⟩)
          · exact ⟨o1, (hcomp2 o1).mpr (Or.inl ho1), rfl⟩
          · exact ⟨o1, (hcomp2 o1).mpr (Or.inr ho1), rfl⟩
      have hDtoth : ∀ k, k ∈ (pruneSpec ps
          (o.hash :: loserHashes index (i+1) os) lvls).2.map (fun y => y.hash) ↔
          (k ∈ (pruneSpec ps [o.hash] lvls).2.map (fun y => y.hash) ∨
            k ∈ (pruneSpec ps (loserHashes index (i+1) os)
              (pruneSpec ps [o.hash] lvls).1).2.map (fun y => y.hash)) := by
        intro k
        simp only [List.mem_map]
        constructor
        · rintro ⟨o1, ho1, rfl⟩
          rcases (hcomp2 o1).mp ho1 with ha | hb
          · exact Or.inl ⟨o1, ha, rfl⟩
          · exact Or.inr ⟨o1, hb, rfl⟩
        · rintro (⟨o1, ho1, rfl⟩ | ⟨o1, ho1, rfl⟩)
          · exact ⟨o1, (hcomp2 o1).mpr (Or.inl ho1), rfl⟩
          · exact ⟨o1, (hcomp2 o1).mpr (Or.inr ho1), rfl⟩
      rw [d1]
      refine ⟨?_, ?_, ⟨Δ1 ++ o.journal_key :: Δ2, ?_, ?_⟩, ?_⟩
      · rw [ih1]
        simp only [loserHashes, if_neg hi]
        rw [← hcomp1]
      · rw [ih2, hps2,
          filter_not_filter_not ps
            (fun k => k = o.hash ∨
              k ∈ (pruneSpec ps [o.hash] lvls).2.map (fun y => y.hash))
            (fun k => k ∈ os.map (fun x => x.hash) ∨
              k ∈ (pruneSpec ps (loserHashes index (i+1) os)
                (pruneSpec ps [o.hash] lvls).1).2.map (fun y => y.hash))]
        simp only [loserHashes, if_neg hi]
        refine filter_not_congr ps
          (fun k => (k = o.hash ∨
              k ∈ (pruneSpec ps [o.hash] lvls).2.map (fun y => y.hash)) ∨
            (k ∈ os.map (fun x => x.hash) ∨
              k ∈ (pruneSpec ps (loserHashes index (i+1) os)
                (pruneSpec ps [o.hash] lvls).1).2.map (fun y => y.hash)))
          (fun k => k ∈ (o :: os).map (fun x => x.hash) ∨
            k ∈ (pruneSpec ps (o.hash :: loserHashes index (i+1) os)
              lvls).2.map (fun x => x.hash))
          (fun k => ?_)
        simp only [hDtoth k, List.map_cons, List.mem_cons]
        tauto
      · rw [hΔ2, hΔ1]
        simp
      · intro x
        simp only [loserHashes, if_neg hi]
        simp only [List.mem_append, List.mem_cons, hΔ1m x, hΔ2m x, hDtotJ x]
        constructor
        · rintro (hd1 | rfl | hos | hd2)
          · exact Or.inr (Or.inl hd1)
          · exact Or.inl ⟨o, Or.inl rfl, rfl⟩
          · obtain ⟨o1, ho1, rfl⟩ := hos
            exact Or.inl ⟨o1, Or.inr ho1, rfl⟩
          · exact Or.inr (Or.inr hd2)
        · rintro (⟨o1, ho1 | ho1, rfl⟩ | hd1 | hd2)
          · rw [ho1]
            exact Or.inr (Or.inl rfl)
          · exact Or.inr (Or.inr (Or.inl ⟨o1, ho1, rfl⟩))
          · exact Or.inl hd1
          · exact Or.inr (Or.inr (Or.inr hd2))
      · rw [ih4]
        simp only [winnerAt, if_neg hi]

/-- Agreement of the retain walks: whenever hashes are pairwise distinct
across the level and its sublevels and every one of those hashes has a
`parents` entry, the line-185 panic cannot fire and the faithful walk
returns exactly the total walk's result. -/
theorem retainAuxP_agree (f : Nat)
    (hD : ∀ L ps js h, L.length ≤ f → (hashesOf L).Nodup →
      (∀ x ∈ hashesOf L, (alookup ps x).isSome = true) →
      discardFP f L ps js h = some (discardF f L ps js h)) :
    ∀ os subs ps js h, subs.length ≤ f →
      ((os.map (fun o => o.hash)) ++ hashesOf subs).Nodup →
      (∀ x ∈ (os.map (fun o => o.hash)) ++ hashesOf subs,
        (alookup ps x).isSome = true) →
      retainAuxP (discardFP f) os subs ps js h =
        some (retainAux (discardF f) os subs ps js h) := by
  intro os
  induction os with
  | nil => intro subs ps js h _ _ _; rfl
  | cons o os ih =>
    intro subs ps js h hlen hnd hcov
    have hndflat : (o.hash :: (os.map (fun x => x.hash) ++ hashesOf subs)).Nodup := by
      simpa using hnd
    have hnotin : ¬ o.hash ∈ os.map (fun x => x.hash) ++ hashesOf subs :=
      (List.nodup_cons.mp hndflat).1
    have hnd2 : (os.map (fun x => x.hash) ++ hashesOf subs).Nodup :=
      (List.nodup_cons.mp hndflat).2
    have hnotin_os : ¬ o.hash ∈ os.map (fun x => x.hash) := fun hx =>
      hnotin (List.mem_append_left _ hx)
    have hnotin_subs : ¬ o.hash ∈ hashesOf subs := fun hx =>
      hnotin (List.mem_append_right _ hx)
    have hnd_subs : (hashesOf subs).Nodup := (List.nodup_append.mp hnd2).2.1
    have hdisj : ∀ a ∈ os.map (fun x => x.hash), ¬ a ∈ hashesOf subs := by
      intro a ha hsub
      exact (List.nodup_append.mp hnd2).2.2 ha hsub
    have hcons : ((o :: os).map (fun x => x.hash)) ++ hashesOf subs =
        o.hash :: (os.map (fun x => x.hash) ++ hashesOf subs) := by
      simp
    have hcovo : (alookup ps o.hash).isSome = true := by
      refine hcov o.hash ?_
      rw [hcons]
      exact List.mem_cons_self _ _
    have hcov2 : ∀ x ∈ os.map (fun x => x.hash) ++ hashesOf subs,
        (alookup ps x).isSome = true := by
      intro x hx
      refine hcov x ?_
      rw [hcons]
      exact List.mem_cons_of_mem _ hx
    cases hlook : alookup ps o.hash with
    | none =>
      rw [hlook] at hcovo
      exact absurd hcovo (by simp)
    | some q =>
      by_cases hqh : q = h
      · subst hqh
        have hcovsubs : ∀ x ∈ hashesOf subs,
            (alookup (mapRemove ps o.hash) x).isSome = true := by
          intro x hx
          rw [alookup_mapRemove, if_neg (show ¬ x = o.hash by
            intro he; rw [he] at hx; exact hnotin_subs hx)]
          exact hcov2 x (List.mem_append_right _ hx)
        have hda := hD subs (mapRemove ps o.hash) (js ++ [o.journal_key]) o.hash
          hlen hnd_subs hcovsubs
        obtain ⟨d1, d2, Δ1, hΔ1, hΔ1m⟩ := discard_spec f subs (mapRemove ps o.hash)
          (js ++ [o.journal_key]) o.hash hlen hnd_subs
        have hps1 : pruneSpec (mapRemove ps o.hash) [o.hash] subs =
            pruneSpec ps [o.hash] subs := by
          apply pruneSpec_congr_ps
          intro x hx
          rw [alookup_mapRemove]
          rw [if_neg (show ¬ x = o.hash by
            intro he; rw [he] at hx; exact hnotin_subs hx)]
        rw [hps1] at d1 d2
        have hlenK : (pruneSpec ps [o.hash] subs).1.length ≤ f := by
          rw [pruneSpec_fst_length]
          exact hlen
        have hndK : (os.map (fun x => x.hash) ++
            hashesOf (pruneSpec ps [o.hash] subs).1).Nodup :=
          List.Nodup.sublist
            (List.Sublist.append_left (hashesOf_sublist ps [o.hash] subs) _) hnd2
        have hcovK : ∀ x ∈ os.map (fun x => x.hash) ++
            hashesOf (pruneSpec ps [o.hash] subs).1,
            (alookup ((mapRemove ps o.hash).filter (fun e => !(decide
              (e.1 ∈ (pruneSpec ps [o.hash] subs).2.map (fun o => o.hash)))))
              x).isSome = true := by
          intro x hx
          have hxnd : ¬ x ∈ (pruneSpec ps [o.hash] subs).2.map (fun o => o.hash) := by
            rcases List.mem_append.mp hx with h1 | h2
            · intro hin
              exact hdisj x h1 (hashes_disc_sub ps [o.hash] subs x hin)
            · exact pruneSpec_kept_not_disc ps [o.hash] subs hnd_subs x h2
          have hxo : ¬ x = o.hash := by
            intro he
            rcases List.mem_append.mp hx with h1 | h2
            · exact hnotin_os (he ▸ h1)
            · exact hnotin_subs (he ▸ hashes_kept_sub ps [o.hash] subs x h2)
          rw [alookup_filter_not (mapRemove ps o.hash)
            (fun k => k ∈ (pruneSpec ps [o.hash] subs).2.map (fun o => o.hash)) x,
            if_neg hxnd, alookup_mapRemove, if_neg hxo]
          rcases List.mem_append.mp hx with h1 | h2
          · exact hcov2 x (List.mem_append_left _ h1)
          · exact hcov2 x (List.mem_append_right _
              (hashes_kept_sub ps [o.hash] subs x h2))
        rw [← d1] at hlenK hndK hcovK
        rw [← d2] at hcovK
        have hrec := ih (discardF f subs (mapRemove ps o.hash)
            (js ++ [o.journal_key]) o.hash).1
          (discardF f subs (mapRemove ps o.hash) (js ++ [o.journal_key]) o.hash).2.1
          (discardF f subs (mapRemove ps o.hash) (js ++ [o.journal_key]) o.hash).2.2
          q hlenK hndK hcovK
        simp only [retainAuxP, retainAux, hlook, if_pos rfl, eq_self_iff_true,
          if_true, ite_true, hda]
        exact hrec
      · have hrec := ih subs ps js h hlen hnd2 hcov2
        simp only [retainAuxP, retainAux, hlook, if_neg hqh, hrec]

/-- Whenever hashes are pairwise distinct across the forest and every one
of them has a `parents` entry, the faithful `discard` does not panic and
agrees with the total one. -/
theorem discardFP_agree : ∀ f L ps js h, L.length ≤ f →
    (hashesOf L).Nodup → (∀ x ∈ hashesOf L, (alookup ps x).isSome = true) →
    discardFP f L ps js h = some (discardF f L ps js h) := by
  intro f
  induction f with
  | zero => intro L ps js h _ _ _; rfl
  | succ f ihf =>
    intro L ps js h hlen hnd hcov
    cases L with
    | nil => rfl
    | cons lvl subs =>
      have hlen1 : subs.length ≤ f := by
        simp only [List.length_cons] at hlen
        omega
      have hnd1 : (lvl.map (fun o => o.hash) ++ hashesOf subs).Nodup := by
        rw [hashesOf_cons] at hnd
        exact hnd
      have hcov1 : ∀ x ∈ lvl.map (fun o => o.hash) ++ hashesOf subs,
          (alookup ps x).isSome = true := by
        intro x hx
        refine hcov x ?_
        rw [hashesOf_cons]
        exact hx
      have hra := retainAuxP_agree f ihf lvl subs ps js h hlen1 hnd1 hcov1
      simp only [discardFP, discardF, hra]

/-- Under hash uniqueness and `parents` coverage of the deeper levels, the
panic-aware `finalize` loop agrees with the total one. -/
theorem finLoopP_agree (index : Nat) :
    ∀ os i lvls ps js data,
      ((os.map (fun o => o.hash)) ++ hashesOf lvls).Nodup →
      (∀ x ∈ hashesOf lvls, (alookup ps x).isSome = true) →
      finLoopP index os i lvls ps js data =
        some (finLoop index os i lvls ps js data) := by
  intro os
  induction os with
  | nil => intro i lvls ps js data _ _; rfl
  | cons o os ih =>
    intro i lvls ps js data hnd hcov
    have hndflat : (o.hash :: (os.map (fun x => x.hash) ++ hashesOf lvls)).Nodup := by
      simpa using hnd
    have hnotin : ¬ o.hash ∈ os.map (fun x => x.hash) ++ hashesOf lvls :=
      (List.nodup_cons.mp hndflat).1
    have hnd2 : (os.map (fun x => x.hash) ++ hashesOf lvls).Nodup :=
      (List.nodup_cons.mp hndflat).2
    have hnotin_lvls : ¬ o.hash ∈ hashesOf lvls := fun hx =>
      hnotin (List.mem_append_right _ hx)
    have hnd_lvls : (hashesOf lvls).Nodup := (List.nodup_append.mp hnd2).2.1
    have hcov1 : ∀ x ∈ hashesOf lvls,
        (alookup (mapRemove ps o.hash) x).isSome = true := by
      intro x hx
      rw [alookup_mapRemove, if_neg (show ¬ x = o.hash by
        intro he; rw [he] at hx; exact hnotin_lvls hx)]
      exact hcov x hx
    by_cases hi : i = index
    · simp only [finLoopP, finLoop, if_pos hi]
      exact ih (i+1) lvls (mapRemove ps o.hash) (js ++ [o.journal_key])
        ⟨o.values, o.deleted⟩ hnd2 hcov1
    · have hda := discardFP_agree lvls.length lvls (mapRemove ps o.hash) js o.hash
        (le_refl _) hnd_lvls hcov1
      obtain ⟨d1, d2, Δ, hΔ, hΔm⟩ := discard_spec lvls.length lvls
        (mapRemove ps o.hash) js o.hash (le_refl _) hnd_lvls
      have hndK : (os.map (fun x => x.hash) ++
          hashesOf (pruneSpec (mapRemove ps o.hash) [o.hash] lvls).1).Nodup :=
        List.Nodup.sublist
          (List.Sublist.append_left
            (hashesOf_sublist (mapRemove ps o.hash) [o.hash] lvls) _) hnd2
      have hcovK : ∀ x ∈ hashesOf (pruneSpec (mapRemove ps o.hash) [o.hash] lvls).1,
          (alookup ((mapRemove ps o.hash).filter (fun e => !(decide
            (e.1 ∈ (pruneSpec (mapRemove ps o.hash) [o.hash] lvls).2.map
              (fun o => o.hash))))) x).isSome = true := by
        intro x hx
        rw [alookup_filter_not (mapRemove ps o.hash)
          (fun k => k ∈ (pruneSpec (mapRemove ps o.hash) [o.hash] lvls).2.map
            (fun o => o.hash)) x,
          if_neg (pruneSpec_kept_not_disc (mapRemove ps o.hash) [o.hash] lvls
            hnd_lvls x hx)]
        exact hcov1 x (hashes_kept_sub (mapRemove ps o.hash) [o.hash] lvls x hx)
      rw [← d1] at hndK hcovK
      rw [← d2] at hcovK
      simp only [finLoopP, finLoop, if_neg hi, discardTopP, discardTop, hda]
      exact ih (i+1) _ _ _ data hndK hcovK

/-- Under the `qed` invariant of `discard` (every overlay hash has a
`parents` entry) and hash uniqueness, the panic-aware `finalize` agrees
with the total one. -/
theorem finalizeOpP_agree (s : UnfinalizedOverlay) (h : Nat)
    (hnd : (hashesOf s.levels).Nodup)
    (hcov : ∀ x ∈ hashesOf s.levels, (alookup s.parents x).isSome = true) :
    finalizeOpP s h = finalizeOp s h := by
  obtain ⟨lf, lvls, ps⟩ := s
  cases lvls with
  | nil => rfl
  | cons lvl rest =>
    simp only [finalizeOpP, finalizeOp]
    cases hf : lvl.findIdx? (fun o => o.hash == h) with
    | none => rfl
    | some index =>
      have hnd1 : (lvl.map (fun o => o.hash) ++ hashesOf rest).Nodup := by
        rw [hashesOf_cons] at hnd
        exact hnd
      have hcov1 : ∀ x ∈ hashesOf rest, (alookup ps x).isSome = true := by
        intro x hx
        refine hcov x ?_
        rw [hashesOf_cons]
        exact List.mem_append_right _ hx
      dsimp only
      rw [finLoopP_agree index lvl 0 rest ps [] ⟨[], []⟩ hnd1 hcov1]

/-- Claim C6: with `last_finalized` set, `insert` aborts (returns `none`,
modelling the `assert!` panics) unless
`front_block_number ≤ number ≤ front_block_number + levels.len()` and the
parent check holds (`parent_hash = last_finalized.hash` on the front level,
`parent_hash ∈ parents` otherwise).  For `finalize` — with all three panics
modelled, `finalizeOpP` — an empty overlay or a hash absent from the front
level aborts unconditionally, and on overlays with pairwise-distinct hashes
and full `parents` coverage (the invariants the structure maintains, under
which the line-185 `expect` inside `discard` cannot fire) these are exactly
the aborts. -/
theorem c6_precondition_aborts :
    (∀ s h n p lfh lfn, ∀ cs : ChangeSet Nat, s.last_finalized = some (lfh, lfn) →
      lfn < W → winc lfn + s.levels.length + 1 < W →
      ((insertOp s h n p cs).isSome ↔
        (frontBlockNumber s ≤ n ∧ n ≤ frontBlockNumber s + s.levels.length ∧
          (n = frontBlockNumber s → p = lfh) ∧
          (n ≠ frontBlockNumber s → (alookup s.parents p).isSome)))) ∧
    (∀ s h, (hashesOf s.levels).Nodup →
      (∀ x ∈ hashesOf s.levels, (alookup s.parents x).isSome = true) →
      ((finalizeOpP s h).isSome ↔
        (s.levels ≠ [] ∧ ∃ o ∈ s.levels.headD [], o.hash = h))) ∧
    (∀ s h, (s.levels = [] ∨ ∀ o ∈ s.levels.headD [], ¬ o.hash = h) →
      finalizeOpP s h = none) := by
  refine ⟨?_, ?_, ?_⟩
  · intro s h n p lfh lfn cs hlf hlt hW
    have hfr : frontBlockNumber s = winc lfn := by
      unfold frontBlockNumber; rw [hlf]
    have hb : ¬(s.levels = [] ∧ s.last_finalized = none) := by
      rintro ⟨-, h2⟩; rw [hlf] at h2; exact Option.noConfusion h2
    have hmod : (frontBlockNumber s + s.levels.length + 1) % W =
        frontBlockNumber s + s.levels.length + 1 := by
      apply Nat.mod_eq_of_lt; rw [hfr]; exact hW
    have hmod2 : (frontBlockNumber s + s.levels.length) % W =
        frontBlockNumber s + s.levels.length := by
      apply Nat.mod_eq_of_lt; rw [hfr]; omega
    unfold insertOp
    rw [if_neg hb, if_pos (by rw [hlf]; rfl)]
    by_cases hrange : frontBlockNumber s ≤ n ∧
        n < (frontBlockNumber s + s.levels.length + 1) % W
    · rw [if_pos hrange]
      obtain ⟨hr1, hr2⟩ := hrange
      rw [hmod] at hr2
      by_cases hfrn : n = frontBlockNumber s
      · rw [if_pos hfrn]
        by_cases hpl : s.last_finalized = some (p, wsub1 n)
        · rw [if_pos hpl]
          have hp : p = lfh := by
            rw [hlf] at hpl
            exact (congrArg Prod.fst (Option.some.injEq .. ▸ hpl)).symm
          simp only [insertGo_isSome s h n p cs _
            (by
              by_cases hl0 : s.levels = []
              · exact Or.inl hl0
              · refine Or.inr (Or.inr ?_)
                have : 0 < s.levels.length := List.length_pos.mpr hl0
                omega), true_iff]
          exact ⟨hr1, by omega, fun _ => hp, fun hne => absurd hfrn hne⟩
        · rw [if_neg hpl]
          simp only [Option.isSome_none, Bool.false_eq_true, false_iff]
          rintro ⟨-, -, hp, -⟩
          apply hpl
          rw [hlf, hp hfrn, hfrn, hfr, wsub1_winc lfn hlt]
      · rw [if_neg hfrn]
        by_cases hpp : (alookup s.parents p).isSome
        · rw [if_pos hpp]
          simp only [insertGo_isSome s h n p cs _
            (by
              by_cases hback : n = frontBlockNumber s + s.levels.length
              · exact Or.inr (Or.inl (by rw [hmod2]; exact hback))
              · refine Or.inr (Or.inr ?_); omega), true_iff]
          exact ⟨hr1, by omega, fun he => absurd he hfrn, fun _ => hpp⟩
        · rw [if_neg hpp]
          simp only [Option.isSome_none, Bool.false_eq_true, false_iff]
          rintro ⟨-, -, -, hp⟩
          exact hpp (hp hfrn)
    · rw [if_neg hrange]
      simp only [Option.isSome_none, Bool.false_eq_true, false_iff]
      rintro ⟨h1, h2, -, -⟩
      exact hrange ⟨h1, by rw [hmod]; omega⟩
  · intro s h hnd hcov
    rw [finalizeOpP_agree s h hnd hcov]
    unfold finalizeOp
    cases hl : s.levels with
    | nil => simp
    | cons lvl rest =>
      simp only [List.headD_cons, ne_eq, reduceCtorEq, not_false_eq_true, true_and]
      cases hf : lvl.findIdx? (fun o => o.hash == h) with
      | none =>
        have := List.findIdx?_eq_none_iff.mp hf
        simp only [Option.isSome_none, Bool.false_eq_true, false_iff]
        rintro ⟨o, ho, hh⟩
        have := this o ho
        simp [hh] at this
      | some idx =>
        simp only [Option.isSome_some, true_iff]
        by_contra hno
        push_neg at hno
        have : lvl.findIdx? (fun o => o.hash == h) = none := by
          rw [List.findIdx?_eq_none_iff]
          intro o ho
          simpa using hno o ho
        rw [hf] at this
        exact Option.noConfusion this
  · intro s h hdis
    obtain ⟨lf, lvls, ps⟩ := s
    cases lvls with
    | nil => rfl
    | cons lvl rest =>
      rcases hdis with hemp | hno
      · exact absurd hemp (List.cons_ne_nil _ _)
      · simp only [List.headD_cons] at hno
        have hf : lvl.findIdx? (fun o => o.hash == h) = none := by
          rw [List.findIdx?_eq_none_iff]
          intro o ho
          simpa using hno o ho
        simp only [finalizeOpP, hf]

/-- Witness for C6 on the concrete one-block overlay. -/
theorem c6_witness :
    ((insertOp c6s 7 2 5 ⟨[], []⟩).isSome ↔
      (frontBlockNumber c6s ≤ 2 ∧ 2 ≤ frontBlockNumber c6s + c6s.levels.length ∧
        (2 = frontBlockNumber c6s → 5 = 0) ∧
        (2 ≠ frontBlockNumber c6s → (alookup c6s.parents 5).isSome))) ∧
    ((finalizeOpP c6s 5).isSome ↔
      (c6s.levels ≠ [] ∧ ∃ o ∈ c6s.levels.headD [], o.hash = 5)) ∧
    finalizeOpP c6s 9 = none :=
  ⟨c6_precondition_aborts.1 c6s 7 2 5 0 0 ⟨[], []⟩ (by decide) (by decide) (by decide),
   c6_precondition_aborts.2.1 c6s 5 (by decide) (by decide),
   c6_precondition_aborts.2.2 c6s 9 (by decide)⟩

/-- Claim C2: when the front level contains the overlay `w` with the given
hash and the overlay satisfies hash uniqueness and `parents` coverage (the
invariants the structure maintains, under which the line-185 `expect`
inside `discard` cannot fire), `finalize` — with all three panics modelled,
`finalizeOpP` — pops the entire front level, copies exactly the winner's
values and deleted list into `commit.data`, sets `last_finalized` to the
pair of the hash and the popped level's number, writes its encoding into
`commit.meta.inserted`, and `commit.meta.deleted` holds exactly the journal
keys of every overlay of the popped level plus every overlay in a subtree
rooted at a discarded sibling (a front overlay with a different hash). -/
theorem c2_finalize_effect (s : UnfinalizedOverlay) (h : Nat)
    (lvl : List BlockOverlay) (rest : List (List BlockOverlay))
    (hlv : s.levels = lvl :: rest)
    (hnd : (hashesOf s.levels).Nodup)
    (hcov : ∀ x ∈ hashesOf s.levels, (alookup s.parents x).isSome = true)
    (w : BlockOverlay) (hw : w ∈ lvl) (hwh : w.hash = h) :
    ∃ c s2, finalizeOpP s h = some (c, s2) ∧
      c.data.inserted = w.values ∧
      c.data.deleted = w.deleted ∧
      s2.last_finalized = some (h, frontBlockNumber s) ∧
      c.meta.inserted = [(LAST_FINALIZED_KEY, encodeLF (h, frontBlockNumber s))] ∧
      s2.levels.length = rest.length ∧
      s2.levels = (pruneSpec s.parents
        ((lvl.filter (fun o => !(o.hash == h))).map (fun o => o.hash)) rest).1 ∧
      (∀ x, x ∈ c.meta.deleted ↔
        ((∃ o ∈ lvl, x = o.journal_key) ∨
          ∃ o ∈ (pruneSpec s.parents
            ((lvl.filter (fun o => !(o.hash == h))).map (fun o => o.hash)) rest).2,
            x = o.journal_key)) ∧
      (∀ k, alookup s2.parents k =
        if k ∈ lvl.map (fun o => o.hash) ∨
            k ∈ (pruneSpec s.parents
              ((lvl.filter (fun o => !(o.hash == h))).map (fun o => o.hash)) rest).2.map
              (fun o => o.hash)
          then none else alookup s.parents k) := by
  obtain ⟨lf, lvls, ps⟩ := s
  simp only at hlv
  subst hlv
  have hagree : finalizeOpP ⟨lf, lvl :: rest, ps⟩ h = finalizeOp ⟨lf, lvl :: rest, ps⟩ h :=
    finalizeOpP_agree ⟨lf, lvl :: rest, ps⟩ h hnd hcov
  rw [hashesOf_cons] at hnd
  have hndl : (lvl.map (fun o => o.hash)).Nodup := (List.nodup_append.mp hnd).1
  cases hf : lvl.findIdx? (fun o => o.hash == h) with
  | none =>
    exfalso
    have := List.findIdx?_eq_none_iff.mp hf w hw
    simp [hwh] at this
  | some index =>
    obtain ⟨w2, hw2, hw2h, hw2mem⟩ := findIdx?_winnerAt h lvl 0 index hf
    have hww : w = w2 := List.inj_on_of_nodup_map hndl hw hw2mem (by rw [hwh, hw2h])
    have hlh := findIdx?_loserHashes h lvl 0 index hf hndl
    obtain ⟨f1, f2, ⟨Δ, hΔ, hΔm⟩, f4⟩ := finLoop_spec index lvl 0 rest ps [] ⟨[], []⟩ hnd
    rw [hlh] at f1 f2 hΔm
    refine ⟨CommitSet.mk (finLoop index lvl 0 rest ps [] ⟨[], []⟩).2.2.2
        ⟨[(LAST_FINALIZED_KEY, encodeLF (h, frontBlockNumber ⟨lf, lvl :: rest, ps⟩))],
          (finLoop index lvl 0 rest ps [] ⟨[], []⟩).2.2.1⟩,
      UnfinalizedOverlay.mk (some (h, frontBlockNumber ⟨lf, lvl :: rest, ps⟩))
        (finLoop index lvl 0 rest ps [] ⟨[], []⟩).1
        (finLoop index lvl 0 rest ps [] ⟨[], []⟩).2.1,
      ?_, ?_, ?_, ?_, ?_, ?_, ?_, ?_, ?_⟩
    · rw [hagree]
      simp only [finalizeOp]
      rw [hf]
    · simp only
      rw [f4, hw2, ← hww]
    · simp only
      rw [f4, hw2, ← hww]
    · rfl
    · rfl
    · simp only
      rw [f1, pruneSpec_fst_length]
    · simp only
      exact f1
    · intro x
      simp only
      rw [hΔ, List.nil_append]
      exact hΔm x
    · intro k
      simp only
      rw [f2, alookup_filter_not ps (fun k => k ∈ lvl.map (fun o => o.hash) ∨
        k ∈ (pruneSpec ps
          ((lvl.filter (fun o => !(o.hash == h))).map (fun o => o.hash)) rest).2.map
          (fun o => o.hash)) k]

/-- The winner overlay of the concrete one-block state `c6s`. -/
def c2w : BlockOverlay := ⟨5, to_journal_key 1 0, [], []⟩

/-- Witness for C2 on the concrete one-block overlay `c6s`. -/
theorem c2_witness :
    ∃ c s2, finalizeOpP c6s 5 = some (c, s2) ∧
      c.data.inserted = c2w.values ∧
      c.data.deleted = c2w.deleted ∧
      s2.last_finalized = some (5, frontBlockNumber c6s) ∧
      c.meta.inserted = [(LAST_FINALIZED_KEY, encodeLF (5, frontBlockNumber c6s))] ∧
      s2.levels.length = List.length ([] : List (List BlockOverlay)) ∧
      s2.levels = (pruneSpec c6s.parents
        (([c2w].filter (fun o => !(o.hash == 5))).map (fun o => o.hash)) []).1 ∧
      (∀ x, x ∈ c.meta.deleted ↔
        ((∃ o ∈ [c2w], x = o.journal_key) ∨
          ∃ o ∈ (pruneSpec c6s.parents
            (([c2w].filter (fun o => !(o.hash == 5))).map (fun o => o.hash)) []).2,
            x = o.journal_key)) ∧
      (∀ k, alookup s2.parents k =
        if k ∈ [c2w].map (fun o => o.hash) ∨
            k ∈ (pruneSpec c6s.parents
              (([c2w].filter (fun o => !(o.hash == 5))).map (fun o => o.hash)) []).2.map
              (fun o => o.hash)
          then none else alookup c6s.parents k) :=
  c2_finalize_effect c6s 5 [c2w] [] (by decide) (by decide) (by decide) c2w
    (by decide) rfl

/-- The linkage invariant: every overlay of the first level has its parent
entry satisfying `prev`, and every deeper overlay's recorded parent is the
hash of some overlay of the preceding level. -/
def LinkedLevels (ps : List (Nat × Nat)) : (Nat → Prop) → List (List BlockOverlay) → Prop
  | _, [] => True
  | prev, lvl :: rest =>
    (∀ o ∈ lvl, ∃ q, alookup ps o.hash = some q ∧ prev q) ∧
      LinkedLevels ps (fun x => ∃ o ∈ lvl, o.hash = x) rest

/-- The invariants of claim C3: `parents` is a map with pairwise-distinct
keys whose domain is exactly the set of overlay hashes, hashes are unique
across the forest, and parent links point at `last_finalized.hash` for the
front level and at the preceding level otherwise. -/
structure OverlayInv (s : UnfinalizedOverlay) : Prop where
  pkeys : NodupKeys s.parents
  hnodup : (hashesOf s.levels).Nodup
  dom : ∀ k, (alookup s.parents k).isSome ↔ k ∈ hashesOf s.levels
  linked : match s.last_finalized with
    | some lf => LinkedLevels s.parents (fun q => q = lf.1) s.levels
    | none => s.levels = []

theorem linked_mono (ps : List (Nat × Nat)) (P Q : Nat → Prop)
    (L : List (List BlockOverlay)) (himp : ∀ q, P q → Q q)
    (hL : LinkedLevels ps P L) : LinkedLevels ps Q L := by
  cases L with
  | nil => trivial
  | cons lvl rest =>
    obtain ⟨h0, h1⟩ := hL
    exact ⟨fun o ho => (h0 o ho).elim (fun q hq => ⟨q, hq.1, himp q hq.2⟩), h1⟩

theorem linked_congr_ps (ps1 ps2 : List (Nat × Nat)) (P : Nat → Prop) :
    ∀ L : List (List BlockOverlay),
      (∀ x ∈ hashesOf L, alookup ps2 x = alookup ps1 x) →
      LinkedLevels ps1 P L → LinkedLevels ps2 P L := by
  intro L
  induction L generalizing P with
  | nil => intro _ _; trivial
  | cons lvl rest ih =>
    intro hagree hL
    obtain ⟨h0, h1⟩ := hL
    refine ⟨?_, ih _ ?_ h1⟩
    · intro o ho
      obtain ⟨q, hq1, hq2⟩ := h0 o ho
      refine ⟨q, ?_, hq2⟩
      have hmem : o.hash ∈ hashesOf (lvl :: rest) := by
        rw [hashesOf_cons]
        exact List.mem_append_left _ (List.mem_map.mpr ⟨o, ho, rfl⟩)
      rw [hagree o.hash hmem]
      exact hq1
    · intro x hx
      exact hagree x (by rw [hashesOf_cons]; exact List.mem_append_right _ hx)

theorem parentIn_false_not_mem (ps : List (Nat × Nat)) (roots : List Nat)
    (o : BlockOverlay) (q : Nat) (hl : alookup ps o.hash = some q)
    (hp : parentIn ps roots o = false) : ¬ q ∈ roots := by
  unfold parentIn at hp
  rw [hl] at hp
  simpa using hp

/-- Pruning preserves linkage: kept overlays still link into the kept part
of the preceding level, and front-level parents avoid the pruned roots. -/
theorem linked_prune (ps ps2 : List (Nat × Nat)) :
    ∀ (L : List (List BlockOverlay)) (prev : Nat → Prop) (roots : List Nat),
      LinkedLevels ps prev L →
      (∀ x ∈ hashesOf (pruneSpec ps roots L).1, alookup ps2 x = alookup ps x) →
      LinkedLevels ps2 (fun q => prev q ∧ ¬ q ∈ roots) (pruneSpec ps roots L).1 := by
  intro L
  induction L with
  | nil => intro prev roots _ _; trivial
  | cons lvl rest ih =>
    intro prev roots hL hagree
    obtain ⟨h0, h1⟩ := hL
    simp only [pruneSpec]
    constructor
    · intro o ho
      have hkept := (List.mem_filter.mp ho).2
      have hmem := List.mem_of_mem_filter ho
      obtain ⟨q, hq1, hq2⟩ := h0 o hmem
      refine ⟨q, ?_, hq2, ?_⟩
      · rw [hagree o.hash ?_]
        · exact hq1
        · simp only [pruneSpec, hashesOf_cons]
          exact List.mem_append_left _ (List.mem_map.mpr ⟨o, ho, rfl⟩)
      · exact parentIn_false_not_mem ps roots o q hq1 (by simpa using hkept)
    · have hrec := ih (fun x => ∃ o ∈ lvl, o.hash = x)
        ((lvl.filter (fun o => parentIn ps roots o)).map (fun o => o.hash)) h1
        (fun x hx => hagree x (by
          simp only [pruneSpec, hashesOf_cons]
          exact List.mem_append_right _ hx))
      refine linked_mono ps2 _ _ _ ?_ hrec
      rintro q ⟨⟨o, ho, rfl⟩, hnin⟩
      by_cases hd : parentIn ps roots o
      · exact absurd (List.mem_map.mpr ⟨o, List.mem_filter.mpr ⟨ho, by simpa using hd⟩,
          rfl⟩) hnin
      · exact ⟨o, List.mem_filter.mpr ⟨ho, by simpa using hd⟩, rfl⟩

/-- Appending a one-overlay level at the back preserves linkage, provided
the new overlay's recorded parent is `prev` (empty forest) or a hash of
the current back level. -/
theorem linked_append_level (ps ps2 : List (Nat × Nat)) (ov : BlockOverlay) (p : Nat) :
    ∀ (L : List (List BlockOverlay)) (prev : Nat → Prop),
      LinkedLevels ps prev L →
      (∀ x ∈ hashesOf L, alookup ps2 x = alookup ps x) →
      alookup ps2 ov.hash = some p →
      (L = [] → prev p) →
      (L ≠ [] → p ∈ (L.getD (L.length - 1) []).map (fun o => o.hash)) →
      LinkedLevels ps2 prev (L ++ [[ov]]) := by
  intro L
  induction L with
  | nil =>
    intro prev _ _ hov hnil _
    exact ⟨fun o ho => by
      rw [List.mem_singleton.mp ho]
      exact ⟨p, hov, hnil rfl⟩, trivial⟩
  | cons lvl rest ih =>
    intro prev hL hagree hov hnil hback
    obtain ⟨h0, h1⟩ := hL
    refine ⟨?_, ?_⟩
    · intro o ho
      obtain ⟨q, hq1, hq2⟩ := h0 o ho
      refine ⟨q, ?_, hq2⟩
      have hmem : o.hash ∈ hashesOf (lvl :: rest) := by
        rw [hashesOf_cons]
        exact List.mem_append_left _ (List.mem_map.mpr ⟨o, ho, rfl⟩)
      rw [hagree o.hash hmem]
      exact hq1
    · refine ih (fun x => ∃ o ∈ lvl, o.hash = x) h1 ?_ hov ?_ ?_
      · intro x hx
        refine hagree x ?_
        rw [hashesOf_cons]
        exact List.mem_append_right _ hx
      · intro hrest
        subst hrest
        have := hback (by simp)
        simp only [List.length_cons, List.length_nil, Nat.add_sub_cancel,
          List.getD_eq_getElem?_getD, List.getElem?_cons_zero, Option.getD_some] at this
        obtain ⟨o, ho, rfl⟩ := List.mem_map.mp this
        exact ⟨o, ho, rfl⟩
      · intro hrest
        have hlen : rest.length ≥ 1 := by
          cases rest with
          | nil => exact absurd rfl hrest
          | cons a b => simp
        have := hback (by simp)
        have harith : (lvl :: rest).length - 1 = (rest.length - 1) + 1 := by
          simp only [List.length_cons]
          omega
        rw [harith] at this
        simpa using this

/-- The index of the level `insert` writes into (the `block_number -
front_block_number` computation, with the new-level condition of lines
144-152). -/
def targetIndex (s : UnfinalizedOverlay) (n : Nat) : Nat :=
  if s.levels = [] ∨ n = (frontBlockNumber s + s.levels.length) % W
  then s.levels.length else n - frontBlockNumber s

/-- The amended parent precondition of claim C3: the recorded parent of an
insert into the front level is `last_finalized.hash`, and the parent of an
insert into a deeper level is the hash of some overlay of the preceding
level. -/
def insertParentOK (s : UnfinalizedOverlay) (n p : Nat) : Bool :=
  if targetIndex s n = 0 then
    (match s.last_finalized with
      | some lf => p == lf.1
      | none => true)
  else ((s.levels.getD (targetIndex s n - 1) []).map (fun o => o.hash)).contains p

theorem getD_len_append (L : List α) (a d : α) : (L ++ [a]).getD L.length d = a := by
  induction L with
  | nil => rfl
  | cons x L ih => simp

theorem set_len_append (L : List α) (a b : α) : (L ++ [a]).set L.length b = L ++ [b] := by
  induction L with
  | nil => rfl
  | cons x L ih => simp [List.set, ih]

theorem hashesOf_append (A B : List (List BlockOverlay)) :
    hashesOf (A ++ B) = hashesOf A ++ hashesOf B := by
  simp [hashesOf, flattenL_append]

/-- Appending an overlay at the end of level `i` adds one element to the
flattened forest, up to permutation. -/
theorem flattenL_set_append (x : α) :
    ∀ (L : List (List α)) (i : Nat), i < L.length →
      List.Perm (flattenL (L.set i (L.getD i [] ++ [x]))) (flattenL L ++ [x]) := by
  intro L
  induction L with
  | nil => intro i hi; simp at hi
  | cons lvl rest ih =>
    intro i hi
    cases i with
    | zero =>
      simp only [List.getD_cons_zero, List.set]
      show List.Perm ((lvl ++ [x]) ++ flattenL rest) ((lvl ++ flattenL rest) ++ [x])
      rw [List.append_assoc, List.append_assoc]
      exact List.Perm.append_left lvl (List.perm_append_comm)
    | succ j =>
      simp only [List.getD_cons_succ, List.set]
      show List.Perm (lvl ++ flattenL (rest.set j (rest.getD j [] ++ [x])))
        ((lvl ++ flattenL rest) ++ [x])
      rw [List.append_assoc]
      exact List.Perm.append_left lvl (ih j (by simpa using hi))

/-- Appending an overlay at the end of level `i` preserves linkage,
provided the overlay's recorded parent is `prev` (for the front level) or a
hash of the preceding level. -/
theorem linked_set_append (ps ps2 : List (Nat × Nat)) (ov : BlockOverlay) (p : Nat) :
    ∀ (L : List (List BlockOverlay)) (i : Nat) (prev : Nat → Prop),
      i < L.length →
      LinkedLevels ps prev L →
      (∀ x ∈ hashesOf L, alookup ps2 x = alookup ps x) →
      alookup ps2 ov.hash = some p →
      (i = 0 → prev p) →
      (0 < i → p ∈ (L.getD (i - 1) []).map (fun o => o.hash)) →
      LinkedLevels ps2 prev (L.set i (L.getD i [] ++ [ov])) := by
  intro L
  induction L with
  | nil => intro i prev hi; simp at hi
  | cons lvl rest ih =>
    intro i prev hi hL hagree hov h0 hpos
    obtain ⟨hfront, hrest⟩ := hL
    have hfront2 : ∀ o ∈ lvl, ∃ q, alookup ps2 o.hash = some q ∧ prev q := by
      intro o ho
      obtain ⟨q, hq1, hq2⟩ := hfront o ho
      refine ⟨q, ?_, hq2⟩
      rw [hagree o.hash (by
        rw [hashesOf_cons]
        exact List.mem_append_left _ (List.mem_map.mpr ⟨o, ho, rfl⟩))]
      exact hq1
    have hagree_rest : ∀ x ∈ hashesOf rest, alookup ps2 x = alookup ps x := by
      intro x hx
      exact hagree x (by rw [hashesOf_cons]; exact List.mem_append_right _ hx)
    cases i with
    | zero =>
      simp only [List.getD_cons_zero, List.set]
      refine ⟨?_, ?_⟩
      · intro o ho
        rcases List.mem_append.mp ho with ho1 | ho2
        · exact hfront2 o ho1
        · rw [List.mem_singleton.mp ho2]
          exact ⟨p, hov, h0 rfl⟩
      · refine linked_mono ps2 _ _ rest ?_
          (linked_congr_ps ps ps2 _ rest hagree_rest hrest)
        rintro q ⟨o, ho, rfl⟩
        exact ⟨o, List.mem_append_left _ ho, rfl⟩
    | succ j =>
      simp only [List.getD_cons_succ, List.set]
      refine ⟨hfront2, ?_⟩
      refine ih j (fun x => ∃ o ∈ lvl, o.hash = x) (by simpa using hi) hrest
        hagree_rest hov ?_ ?_
      · intro hj
        subst hj
        have := hpos (by omega)
        simp only [Nat.add_sub_cancel, List.getD_cons_zero] at this
        obtain ⟨o, ho, rfl⟩ := List.mem_map.mp this
        exact ⟨o, ho, rfl⟩
      · intro hj
        have := hpos (by omega)
        have harith : j + 1 - 1 = (j - 1) + 1 := by omega
        rw [harith, List.getD_cons_succ] at this
        exact this

/-- Rebuilding the linkage field of `OverlayInv` when `last_finalized` is
known to be set. -/
theorem inv_linked_some (s : UnfinalizedOverlay) (lf0 : Nat × Nat)
    (hlf0 : s.last_finalized = some lf0)
    (h : LinkedLevels s.parents (fun q => q = lf0.1) s.levels) :
    (match s.last_finalized with
      | some lf => LinkedLevels s.parents (fun q => q = lf.1) s.levels
      | none => s.levels = []) := by
  rw [hlf0]
  exact h

/-- The invariants survive appending a fresh one-overlay level at the back
of the forest. -/
theorem inv_append_level (s : UnfinalizedOverlay) (h p : Nat) (ov : BlockOverlay)
    (inv : OverlayInv s) (lf0 : Nat × Nat) (hlf0 : s.last_finalized = some lf0)
    (hovh : ov.hash = h)
    (hfresh : alookup s.parents h = none)
    (hp0 : s.levels = [] → p = lf0.1)
    (hpb : s.levels ≠ [] →
      p ∈ (s.levels.getD (s.levels.length - 1) []).map (fun o => o.hash)) :
    OverlayInv ⟨s.last_finalized, s.levels ++ [[ov]], mapIns s.parents h p⟩ := by
  have hnotin : ¬ h ∈ hashesOf s.levels := by
    intro hmem
    have hx := (inv.dom h).mpr hmem
    rw [hfresh] at hx
    simp at hx
  have hagree : ∀ x ∈ hashesOf s.levels,
      alookup (mapIns s.parents h p) x = alookup s.parents x := by
    intro x hx
    rw [alookup_mapIns, if_neg (show ¬ x = h by intro he; exact hnotin (he ▸ hx))]
  have hlink : LinkedLevels s.parents (fun q => q = lf0.1) s.levels := by
    have hx := inv.linked
    rw [hlf0] at hx
    exact hx
  have hhs : hashesOf (s.levels ++ [[ov]]) = hashesOf s.levels ++ [h] := by
    rw [hashesOf_append]
    simp [hashesOf, flattenL, hovh]
  refine ⟨NodupKeys_mapIns _ _ _ inv.pkeys, ?_, ?_, ?_⟩
  · show (hashesOf (s.levels ++ [[ov]])).Nodup
    rw [hhs]
    refine List.Nodup.append inv.hnodup (List.nodup_singleton h) ?_
    intro a ha hb
    rw [List.mem_singleton.mp hb] at ha
    exact hnotin ha
  · intro k
    show (alookup (mapIns s.parents h p) k).isSome ↔ k ∈ hashesOf (s.levels ++ [[ov]])
    rw [hhs, alookup_mapIns, List.mem_append, List.mem_singleton]
    by_cases hk : k = h
    · simp [hk]
    · rw [if_neg hk, inv.dom k]
      simp [hk]
  · refine inv_linked_some _ lf0 hlf0 ?_
    show LinkedLevels (mapIns s.parents h p) (fun q => q = lf0.1) (s.levels ++ [[ov]])
    refine linked_append_level s.parents (mapIns s.parents h p) ov p s.levels _
      hlink hagree ?_ hp0 hpb
    rw [hovh, alookup_mapIns, if_pos rfl]

/-- The invariants survive appending a fresh overlay at the end of an
existing level. -/
theorem inv_set_level (s : UnfinalizedOverlay) (h p i : Nat) (ov : BlockOverlay)
    (inv : OverlayInv s) (lf0 : Nat × Nat) (hlf0 : s.last_finalized = some lf0)
    (hovh : ov.hash = h) (hi : i < s.levels.length)
    (hfresh : alookup s.parents h = none)
    (hp0 : i = 0 → p = lf0.1)
    (hpb : 0 < i → p ∈ (s.levels.getD (i - 1) []).map (fun o => o.hash)) :
    OverlayInv ⟨s.last_finalized, s.levels.set i (s.levels.getD i [] ++ [ov]),
      mapIns s.parents h p⟩ := by
  have hnotin : ¬ h ∈ hashesOf s.levels := by
    intro hmem
    have hx := (inv.dom h).mpr hmem
    rw [hfresh] at hx
    simp at hx
  have hagree : ∀ x ∈ hashesOf s.levels,
      alookup (mapIns s.parents h p) x = alookup s.parents x := by
    intro x hx
    rw [alookup_mapIns, if_neg (show ¬ x = h by intro he; exact hnotin (he ▸ hx))]
  have hlink : LinkedLevels s.parents (fun q => q = lf0.1) s.levels := by
    have hx := inv.linked
    rw [hlf0] at hx
    exact hx
  have hperm : List.Perm (hashesOf (s.levels.set i (s.levels.getD i [] ++ [ov])))
      (hashesOf s.levels ++ [h]) := by
    have hp := List.Perm.map (fun o => o.hash) (flattenL_set_append ov s.levels i hi)
    rw [List.map_append] at hp
    simpa [hashesOf, hovh] using hp
  refine ⟨NodupKeys_mapIns _ _ _ inv.pkeys, ?_, ?_, ?_⟩
  · show (hashesOf (s.levels.set i (s.levels.getD i [] ++ [ov]))).Nodup
    rw [List.Perm.nodup_iff hperm]
    refine List.Nodup.append inv.hnodup (List.nodup_singleton h) ?_
    intro a ha hb
    rw [List.mem_singleton.mp hb] at ha
    exact hnotin ha
  · intro k
    show (alookup (mapIns s.parents h p) k).isSome ↔
      k ∈ hashesOf (s.levels.set i (s.levels.getD i [] ++ [ov]))
    rw [List.Perm.mem_iff hperm, alookup_mapIns, List.mem_append, List.mem_singleton]
    by_cases hk : k = h
    · simp [hk]
    · rw [if_neg hk, inv.dom k]
      simp [hk]
  · refine inv_linked_some _ lf0 hlf0 ?_
    show LinkedLevels (mapIns s.parents h p) (fun q => q = lf0.1)
      (s.levels.set i (s.levels.getD i [] ++ [ov]))
    refine linked_set_append s.parents (mapIns s.parents h p) ov p s.levels i _
      hi hlink hagree ?_ hp0 hpb
    rw [hovh, alookup_mapIns, if_pos rfl]

/-- The shared insertion tail preserves the invariants when the inserted
hash is fresh and the recorded parent satisfies the amended parent
precondition. -/
theorem insertGo_inv (s : UnfinalizedOverlay) (h n p : Nat) (cs : ChangeSet Nat)
    (metaPre : List (List Nat × List Nat)) (c : CommitSet) (s2 : UnfinalizedOverlay)
    (inv : OverlayInv s) (hlf : s.last_finalized.isSome)
    (hfresh : alookup s.parents h = none)
    (hpok : insertParentOK s n p = true)
    (heq : insertGo s h n p cs metaPre = some (c, s2)) :
    OverlayInv s2 := by
  obtain ⟨lf0, hlf0⟩ := Option.isSome_iff_exists.mp hlf
  simp only [insertGo] at heq
  unfold insertParentOK targetIndex at hpok
  by_cases hnl : (s.levels = [] ∨ n = (frontBlockNumber s + s.levels.length) % W)
  · simp only [if_pos hnl] at heq hpok
    have hguard : s.levels.length < (s.levels ++ [[]]).length := by simp
    rw [if_pos hguard] at heq
    rw [getD_len_append, set_len_append, List.nil_append] at heq
    rw [Option.some.injEq, Prod.mk.injEq] at heq
    obtain ⟨hc, hs2⟩ := heq
    refine hs2 ▸ inv_append_level s h p _ inv lf0 hlf0 rfl hfresh ?_ ?_
    · intro hL
      rw [if_pos (by simp [hL]), hlf0] at hpok
      simpa using hpok
    · intro hL
      have hlen : s.levels.length ≠ 0 := by
        intro hz
        exact hL (List.length_eq_zero.mp hz)
      rw [if_neg hlen] at hpok
      simpa using hpok
  · simp only [if_neg hnl] at heq hpok
    by_cases hguard : n - frontBlockNumber s < s.levels.length
    · rw [if_pos hguard] at heq
      rw [Option.some.injEq, Prod.mk.injEq] at heq
      obtain ⟨hc, hs2⟩ := heq
      refine hs2 ▸ inv_set_level s h p (n - frontBlockNumber s) _ inv lf0 hlf0 rfl
        hguard hfresh ?_ ?_
      · intro hi0
        rw [if_pos hi0, hlf0] at hpok
        simpa using hpok
      · intro hipos
        rw [if_neg (by omega)] at hpok
        simpa using hpok
    · rw [if_neg hguard] at heq
      exact Option.noConfusion heq

/-- `insert` preserves the invariants under the amended preconditions:
fresh hash and a parent on the preceding level (or `last_finalized.hash`
for a front-level insert). -/
theorem insertOp_inv (s : UnfinalizedOverlay) (h n p : Nat) (cs : ChangeSet Nat)
    (c : CommitSet) (s2 : UnfinalizedOverlay)
    (inv : OverlayInv s) (hfresh : alookup s.parents h = none)
    (hpok : insertParentOK s n p = true)
    (heq : insertOp s h n p cs = some (c, s2)) :
    OverlayInv s2 := by
  unfold insertOp at heq
  by_cases hb : s.levels = [] ∧ s.last_finalized = none
  · rw [if_pos hb] at heq
    obtain ⟨hL, hnone⟩ := hb
    refine insertGo_inv ⟨some (p, wsub1 n), s.levels, s.parents⟩ h n p cs
      [(LAST_FINALIZED_KEY, encodeLF (p, wsub1 n))] c s2 ?_ rfl hfresh ?_ heq
    · refine ⟨inv.pkeys, inv.hnodup, inv.dom, ?_⟩
      show LinkedLevels s.parents (fun q => q = (p, wsub1 n).1) s.levels
      rw [hL]
      trivial
    · show insertParentOK ⟨some (p, wsub1 n), s.levels, s.parents⟩ n p = true
      unfold insertParentOK targetIndex
      simp [hL]
  · rw [if_neg hb] at heq
    by_cases hlf : s.last_finalized.isSome
    · rw [if_pos hlf] at heq
      by_cases hrange : frontBlockNumber s ≤ n ∧
          n < (frontBlockNumber s + s.levels.length + 1) % W
      · rw [if_pos hrange] at heq
        by_cases hfr : n = frontBlockNumber s
        · rw [if_pos hfr] at heq
          by_cases hpl : s.last_finalized = some (p, wsub1 n)
          · rw [if_pos hpl] at heq
            exact insertGo_inv s h n p cs [] c s2 inv hlf hfresh hpok heq
          · rw [if_neg hpl] at heq
            exact Option.noConfusion heq
        · rw [if_neg hfr] at heq
          by_cases hpp : (alookup s.parents p).isSome
          · rw [if_pos hpp] at heq
            exact insertGo_inv s h n p cs [] c s2 inv hlf hfresh hpok heq
          · rw [if_neg hpp] at heq
            exact Option.noConfusion heq
      · rw [if_neg hrange] at heq
        exact Option.noConfusion heq
    · rw [if_neg hlf] at heq
      exfalso
      have hnone : s.last_finalized = none := Option.not_isSome_iff_eq_none.mp hlf
      have hlev : s.levels = [] := by
        have hx := inv.linked
        rw [hnone] at hx
        exact hx
      exact hb ⟨hlev, hnone⟩

/-- `finalize` preserves the invariants. -/
theorem finalizeOp_inv (s : UnfinalizedOverlay) (h : Nat) (c : CommitSet)
    (s2 : UnfinalizedOverlay) (inv : OverlayInv s)
    (heq : finalizeOp s h = some (c, s2)) : OverlayInv s2 := by
  obtain ⟨lf, lvls, ps⟩ := s
  cases lvls with
  | nil =>
    simp only [finalizeOp] at heq
    exact Option.noConfusion heq
  | cons lvl rest =>
    have hlfsome : ∃ lf0, lf = some lf0 := by
      cases lf with
      | none => exact absurd inv.linked (List.cons_ne_nil _ _)
      | some lf0 => exact ⟨lf0, rfl⟩
    obtain ⟨lf0, rfl⟩ := hlfsome
    have hlink : LinkedLevels ps (fun q => q = lf0.1) (lvl :: rest) := inv.linked
    obtain ⟨hfr2, hrest⟩ := hlink
    simp only [finalizeOp] at heq
    cases hf : lvl.findIdx? (fun o => o.hash == h) with
    | none =>
      rw [hf] at heq
      exact Option.noConfusion heq
    | some index =>
      rw [hf] at heq
      rw [Option.some.injEq, Prod.mk.injEq] at heq
      obtain ⟨-, hs2⟩ := heq
      have hnd : ((lvl.map (fun o => o.hash)) ++ hashesOf rest).Nodup := by
        have hx := inv.hnodup
        rw [hashesOf_cons] at hx
        exact hx
      have hndl : (lvl.map (fun o => o.hash)).Nodup := (List.nodup_append.mp hnd).1
      have hndr : (hashesOf rest).Nodup := (List.nodup_append.mp hnd).2.1
      have hdisj : ∀ a ∈ lvl.map (fun o => o.hash), ¬ a ∈ hashesOf rest :=
        fun a ha => (List.nodup_append.mp hnd).2.2 ha
      obtain ⟨f1, f2, -, -⟩ := finLoop_spec index lvl 0 rest ps [] ⟨[], []⟩ hnd
      have hlh := findIdx?_loserHashes h lvl 0 index hf hndl
      have hkP : ∀ k, k ∈ hashesOf (pruneSpec ps (loserHashes index 0 lvl) rest).1 →
          ¬ (k ∈ lvl.map (fun o => o.hash) ∨
            k ∈ (pruneSpec ps (loserHashes index 0 lvl) rest).2.map
              (fun o => o.hash)) := by
        rintro k hk (h1 | h2)
        · exact hdisj k h1 (hashes_kept_sub ps _ rest k hk)
        · exact pruneSpec_kept_not_disc ps _ rest hndr k hk h2
      have hkmem : ∀ k, k ∈ hashesOf (pruneSpec ps (loserHashes index 0 lvl) rest).1 ↔
          (k ∈ hashesOf rest ∧
            ¬ k ∈ (pruneSpec ps (loserHashes index 0 lvl) rest).2.map
              (fun o => o.hash)) := by
        intro k
        constructor
        · intro hk
          exact ⟨hashes_kept_sub ps _ rest k hk,
            pruneSpec_kept_not_disc ps _ rest hndr k hk⟩
        · rintro ⟨hk1, hk2⟩
          obtain ⟨o, ho, rfl⟩ := List.mem_map.mp hk1
          rcases (pruneSpec_partition ps (loserHashes index 0 lvl) rest o).mp ho with
            hko | hkd
          · exact List.mem_map.mpr ⟨o, hko, rfl⟩
          · exact absurd (List.mem_map.mpr ⟨o, hkd, rfl⟩) hk2
      subst hs2
      refine ⟨?_, ?_, ?_, ?_⟩
      · show NodupKeys (finLoop index lvl 0 rest ps [] ⟨[], []⟩).2.1
        rw [f2]
        exact NodupKeys_filter _ _ inv.pkeys
      · show (hashesOf (finLoop index lvl 0 rest ps [] ⟨[], []⟩).1).Nodup
        rw [f1]
        exact List.Nodup.sublist (hashesOf_sublist ps _ rest) hndr
      · intro k
        show (alookup (finLoop index lvl 0 rest ps [] ⟨[], []⟩).2.1 k).isSome ↔
          k ∈ hashesOf (finLoop index lvl 0 rest ps [] ⟨[], []⟩).1
        rw [f1, f2, alookup_filter_not ps
          (fun k => k ∈ lvl.map (fun o => o.hash) ∨
            k ∈ (pruneSpec ps (loserHashes index 0 lvl) rest).2.map
              (fun o => o.hash)) k]
        by_cases hP : k ∈ lvl.map (fun o => o.hash) ∨
            k ∈ (pruneSpec ps (loserHashes index 0 lvl) rest).2.map (fun o => o.hash)
        · rw [if_pos hP]
          exact iff_of_false (by simp) (fun hk => hkP k hk hP)
        · rw [if_neg hP]
          rw [inv.dom k, hashesOf_cons, hkmem k]
          constructor
          · intro hk
            rcases List.mem_append.mp hk with h1 | h2
            · exact absurd (Or.inl h1) hP
            · exact ⟨h2, fun hd => hP (Or.inr hd)⟩
          · rintro ⟨hk1, -⟩
            exact List.mem_append.mpr (Or.inr hk1)
      · refine inv_linked_some
          ⟨some (h, frontBlockNumber ⟨some lf0, lvl :: rest, ps⟩),
            (finLoop index lvl 0 rest ps [] ⟨[], []⟩).1,
            (finLoop index lvl 0 rest ps [] ⟨[], []⟩).2.1⟩
          (h, frontBlockNumber ⟨some lf0, lvl :: rest, ps⟩) rfl ?_
        show LinkedLevels (finLoop index lvl 0 rest ps [] ⟨[], []⟩).2.1
          (fun q => q = h) (finLoop index lvl 0 rest ps [] ⟨[], []⟩).1
        rw [f1, f2]
        have hagree2 : ∀ x ∈ hashesOf (pruneSpec ps (loserHashes index 0 lvl) rest).1,
            alookup (ps.filter (fun e => !(decide (e.1 ∈ lvl.map (fun o => o.hash) ∨
              e.1 ∈ (pruneSpec ps (loserHashes index 0 lvl) rest).2.map
                (fun o => o.hash))))) x = alookup ps x := by
          intro x hx
          rw [alookup_filter_not ps
            (fun k => k ∈ lvl.map (fun o => o.hash) ∨
              k ∈ (pruneSpec ps (loserHashes index 0 lvl) rest).2.map
                (fun o => o.hash)) x, if_neg (hkP x hx)]
        have hpruned := linked_prune ps _ rest (fun x => ∃ o ∈ lvl, o.hash = x)
          (loserHashes index 0 lvl) hrest hagree2
        refine linked_mono _ _ _ _ ?_ hpruned
        rintro q ⟨⟨o, ho, rfl⟩, hnr⟩
        by_cases hoh : o.hash = h
        · exact hoh
        · exfalso
          apply hnr
          rw [hlh]
          exact List.mem_map.mpr ⟨o, List.mem_filter.mpr ⟨ho, by simp [hoh]⟩, rfl⟩

/-- The empty overlay satisfies the invariants. -/
theorem inv_empty : OverlayInv ⟨none, [], []⟩ := by
  refine ⟨?_, ?_, ?_, rfl⟩
  · show (([] : List (Nat × Nat)).map Prod.fst).Nodup
    simp
  · show (hashesOf []).Nodup
    simp [hashesOf, flattenL]
  · intro k
    show (alookup [] k).isSome ↔ k ∈ hashesOf []
    simp [alookup, hashesOf, flattenL]

/-- Under the invariants, `parents` has exactly one entry per overlay. -/
theorem parents_length_of_inv (s : UnfinalizedOverlay) (inv : OverlayInv s) :
    s.parents.length = (flattenL s.levels).length := by
  have hmem : ∀ k, k ∈ s.parents.map Prod.fst ↔ k ∈ hashesOf s.levels := by
    intro k
    rw [← alookup_isSome_iff_mem]
    exact inv.dom k
  have hperm : List.Perm (s.parents.map Prod.fst) (hashesOf s.levels) :=
    (List.perm_ext_iff_of_nodup inv.pkeys inv.hnodup).mpr hmem
  have hlen := hperm.length_eq
  simpa [hashesOf] using hlen

/-- Claim C3: from the empty store, `new` yields the empty overlay, which
satisfies the invariants (`parents` keys are exactly the overlay hashes,
hashes are unique across levels, front-level parents equal
`last_finalized.hash` and deeper parents are hashes of the preceding
level); `insert` preserves them when the inserted hash is fresh and the
recorded parent satisfies the amended parent precondition; `finalize`
preserves them unconditionally; and the invariants force
`|parents| = ` total overlay count. -/
theorem c3_invariants :
    (newOverlay [] = Except.ok ⟨none, [], []⟩ ∧ OverlayInv ⟨none, [], []⟩) ∧
    (∀ s h n p, ∀ cs : ChangeSet Nat, ∀ c s2, OverlayInv s →
      alookup s.parents h = none → insertParentOK s n p = true →
      insertOp s h n p cs = some (c, s2) → OverlayInv s2) ∧
    (∀ s h c s2, OverlayInv s → finalizeOp s h = some (c, s2) → OverlayInv s2) ∧
    (∀ s, OverlayInv s → s.parents.length = (flattenL s.levels).length) :=
  ⟨⟨rfl, inv_empty⟩,
    fun s h n p cs c s2 inv hfresh hpok heq =>
      insertOp_inv s h n p cs c s2 inv hfresh hpok heq,
    fun s h c s2 inv heq => finalizeOp_inv s h c s2 inv heq,
    fun s inv => parents_length_of_inv s inv⟩

/-- The overlay after a bootstrap insert of hash 5 at number 1, parent 0. -/
def c3s1 : UnfinalizedOverlay :=
  ⟨some (0, 0), [[⟨5, to_journal_key 1 0, [], []⟩]], [(5, 0)]⟩

/-- `c3s1` after inserting hash 6 at number 2 with parent 5. -/
def c3s2 : UnfinalizedOverlay :=
  ⟨some (0, 0), [[⟨5, to_journal_key 1 0, [], []⟩], [⟨6, to_journal_key 2 0, [], []⟩]],
    [(6, 5), (5, 0)]⟩

/-- `c3s2` after finalizing hash 5. -/
def c3s3 : UnfinalizedOverlay :=
  ⟨some (5, 1), [[⟨6, to_journal_key 2 0, [], []⟩]], [(6, 5)]⟩

/-- Witness for C3: the invariants, chained through a concrete bootstrap
insert, a second-level insert and a finalization, together with the
entry-count consequence at the final state. -/
theorem c3_witness :
    OverlayInv c3s3 ∧ c3s3.parents.length = (flattenL c3s3.levels).length := by
  have h1 : (insertOp ⟨none, [], []⟩ 5 1 0 ⟨[], []⟩).map (fun r => r.2) = some c3s1 := by
    decide
  have h2 : (insertOp c3s1 6 2 5 ⟨[], []⟩).map (fun r => r.2) = some c3s2 := by decide
  have h3 : (finalizeOp c3s2 5).map (fun r => r.2) = some c3s3 := by decide
  obtain ⟨r1, hr1⟩ : ∃ r, insertOp ⟨none, [], []⟩ 5 1 0 ⟨[], []⟩ = some r := by
    cases hx : insertOp ⟨none, [], []⟩ 5 1 0 ⟨[], []⟩ with
    | none => rw [hx] at h1; exact Option.noConfusion h1
    | some r => exact ⟨r, rfl⟩
  rw [hr1] at h1
  have h1e : r1.2 = c3s1 := by simpa using h1
  obtain ⟨r2, hr2⟩ : ∃ r, insertOp c3s1 6 2 5 ⟨[], []⟩ = some r := by
    cases hx : insertOp c3s1 6 2 5 ⟨[], []⟩ with
    | none => rw [hx] at h2; exact Option.noConfusion h2
    | some r => exact ⟨r, rfl⟩
  rw [hr2] at h2
  have h2e : r2.2 = c3s2 := by simpa using h2
  obtain ⟨r3, hr3⟩ : ∃ r, finalizeOp c3s2 5 = some r := by
    cases hx : finalizeOp c3s2 5 with
    | none => rw [hx] at h3; exact Option.noConfusion h3
    | some r => exact ⟨r, rfl⟩
  rw [hr3] at h3
  have h3e : r3.2 = c3s3 := by simpa using h3
  have inv0 : OverlayInv ⟨none, [], []⟩ := c3_invariants.1.2
  have inv1 : OverlayInv c3s1 := by
    have hx := c3_invariants.2.1 ⟨none, [], []⟩ 5 1 0 ⟨[], []⟩ r1.1 r1.2 inv0
      (by decide) (by decide) (by rw [hr1])
    rwa [h1e] at hx
  have inv2 : OverlayInv c3s2 := by
    have hx := c3_invariants.2.1 c3s1 6 2 5 ⟨[], []⟩ r2.1 r2.2 inv1
      (by decide) (by decide) (by rw [hr2])
    rwa [h2e] at hx
  have inv3 : OverlayInv c3s3 := by
    have hx := c3_invariants.2.2.1 c3s2 5 r3.1 r3.2 inv2 (by rw [hr3])
    rwa [h3e] at hx
  exact ⟨inv3, c3_invariants.2.2.2 c3s3 inv3⟩

/-- Counterexample to C3 as stated: a bootstrap insert followed by a
duplicate insert of the same hash on the same level succeeds, after which
`parents` has fewer entries than the forest has overlays (the duplicate
overwrote the parents entry), so the invariant does not hold after every
public operation without the amended freshness precondition. -/
theorem c3_counterexample :
    ((insertOp ⟨none, [], []⟩ 5 1 0 ⟨[], []⟩).bind (fun r1 =>
      (insertOp r1.2 5 1 0 ⟨[], []⟩).map (fun r2 =>
        decide (r2.2.parents.length = (flattenL r2.2.levels).length)))) = some false := by
  decide
